import Mathlib

/-!
Verification development for the Simplex Method Solver repository.

The two solver classes (`SimplexSolver` in `src/lib/simplex-solver.ts` and
`DualSimplexSolver` in `src/lib/dual-simplex-solver.ts`) are shallowly embedded
below.  JavaScript numbers are modelled by `ℚ`; the JS `NaN` outcome of
`parseFloat` is modelled by `Option ℚ` with `none` standing for `NaN`
(the `Infinity` literal accepted by the real `parseFloat` is outside the
modelled input set, as no solver input in this development uses it).
Strings are modelled as `List Char`.  Matrix cells that the source reads out
of bounds (never reached on well-formed solver states) default to `0` here.
-/

/- Batteries marks the `Rat` arithmetic operations `@[irreducible]`; restore
definitional unfolding so concrete solver runs can be evaluated by `decide`
and `rfl` in the witnesses below. -/
attribute [local semireducible] Rat.mul Rat.add Rat.sub Rat.inv Rat.ofScientific

namespace Simplex

/-- JS `String.prototype.trim`: drop leading and trailing whitespace. -/
def jsTrim (s : List Char) : List Char :=
  ((s.dropWhile Char.isWhitespace).reverse.dropWhile Char.isWhitespace).reverse

/-- Numeric value of a digit string (used for `parseInt` on variable suffixes
and inside `parseFloat`). -/
def digitsVal (ds : List Char) : Nat :=
  ds.foldl (fun acc c => acc * 10 + (c.toNat - 48)) 0

/-- Exponent part of the JS float grammar: `[+-]?digits`; an incomplete
exponent contributes 0 (JS `parseFloat` backtracks past a bare `e`). -/
def expVal (cs : List Char) : Int :=
  let p : Int × List Char :=
    match cs with
    | '+' :: r => (1, r)
    | '-' :: r => (-1, r)
    | r => (1, r)
  let ds := p.2.takeWhile Char.isDigit
  if ds.isEmpty then 0 else p.1 * (digitsVal ds : Int)

/-- JS `Number.parseFloat`: skip leading whitespace, optional sign, longest
prefix `digits [. digits] [e[+-]digits]`.  `none` models the `NaN` result
(no digit found at all). -/
def jsParseFloat (cs0 : List Char) : Option ℚ :=
  let cs1 := cs0.dropWhile Char.isWhitespace
  let sgn : ℚ := match cs1 with | '-' :: _ => -1 | _ => 1
  let cs2 : List Char := match cs1 with
    | '+' :: r => r
    | '-' :: r => r
    | r => r
  let d1 := cs2.takeWhile Char.isDigit
  let cs3 := cs2.dropWhile Char.isDigit
  let p : List Char × List Char :=
    match cs3 with
    | '.' :: r => (r.takeWhile Char.isDigit, r.dropWhile Char.isDigit)
    | _ => ([], cs3)
  let d2 := p.1
  let cs4 := p.2
  if d1.isEmpty && d2.isEmpty then none
  else
    let mant : ℚ := (digitsVal d1 : ℚ) + (digitsVal d2 : ℚ) / ((10 : ℚ) ^ d2.length)
    let ex : Int := match cs4 with
      | 'e' :: r => expVal r
      | 'E' :: r => expVal r
      | _ => 0
    some (sgn * (if 0 ≤ ex then mant * (10 : ℚ) ^ ex.toNat else mant / (10 : ℚ) ^ (-ex).toNat))

/-- JS `constraint.split(/<=|>=|=/)`: split on every occurrence of `<=`, `>=`
or `=`, scanning left to right (at a `<` or `>` the two-character operator is
tried first, exactly as the regex alternation does). -/
def splitRelAux : List Char → List Char → List (List Char)
  | [], acc => [acc.reverse]
  | '<' :: '=' :: rest, acc => acc.reverse :: splitRelAux rest []
  | '>' :: '=' :: rest, acc => acc.reverse :: splitRelAux rest []
  | '=' :: rest, acc => acc.reverse :: splitRelAux rest []
  | ch :: rest, acc => splitRelAux rest (ch :: acc)

def splitRel (s : List Char) : List (List Char) := splitRelAux s []

/-- JS `expr.split(/(?=[-+])/)`: split before every `+` or `-` except at
position 0 (a zero-width match at the start produces no leading piece). -/
def splitSignsAux : List Char → List Char → List (List Char)
  | [], acc => [acc.reverse]
  | ch :: rest, acc =>
    if (ch == '+' || ch == '-') && !acc.isEmpty then
      acc.reverse :: splitSignsAux rest [ch]
    else
      splitSignsAux rest (ch :: acc)

def splitSigns (s : List Char) : List (List Char) := splitSignsAux s []

/-- Does `s` start with `pat`? -/
def startsWithL : List Char → List Char → Bool
  | _, [] => true
  | [], _ :: _ => false
  | c :: s, p :: ps => c == p && startsWithL s ps

/-- JS `String.prototype.includes`: substring containment. -/
def containsSub : List Char → List Char → Bool
  | [], pat => startsWithL [] pat
  | c :: rest, pat => startsWithL (c :: rest) pat || containsSub rest pat

/-- JS `str.replace(/\s+/g, "")`: delete all whitespace. -/
def stripWs (s : List Char) : List Char := s.filter (fun c => !c.isWhitespace)

/-- The match of `/^\s*([+-]?\s*\d*\.?\d*)\s*(.*)$/` against a term
(this regex always matches).  Returns (group 1, group 2).  All parts are
greedy and nothing after them can force backtracking, so a straight
left-to-right scan is exact. -/
def matchTermPrimal (t : List Char) : List Char × List Char :=
  let r0 := t.dropWhile Char.isWhitespace
  let p1 : List Char × List Char :=
    match r0 with
    | '+' :: r => (['+'], r)
    | '-' :: r => (['-'], r)
    | r => ([], r)
  let ws2 := p1.2.takeWhile Char.isWhitespace
  let r2 := p1.2.dropWhile Char.isWhitespace
  let d1 := r2.takeWhile Char.isDigit
  let r3 := r2.dropWhile Char.isDigit
  let p2 : List Char × List Char :=
    match r3 with
    | '.' :: r => (['.'], r)
    | _ => ([], r3)
  let d2 := p2.2.takeWhile Char.isDigit
  let r5 := p2.2.dropWhile Char.isDigit
  (p1.1 ++ ws2 ++ d1 ++ p2.1 ++ d2, r5.dropWhile Char.isWhitespace)

/-- The match of `/^\s*([+-]?\s*\d*\.?\d*)\s*(x\d+)/` against a term, used by
the dual tableau builder.  `none` when the term has no `x<digits>` right after
its numeric prefix (regex backtracking cannot help: `x` is never a digit, dot
or whitespace). -/
def matchTermDual (t : List Char) : Option (List Char × List Char) :=
  let g := matchTermPrimal t
  match g.2 with
  | 'x' :: r =>
    let ds := r.takeWhile Char.isDigit
    if ds.isEmpty then none else some (g.1, 'x' :: ds)
  | _ => none

/-- Coefficient of a term from its (whitespace-stripped) numeric prefix:
`"" `/`"+"` ↦ 1, `"-"` ↦ -1, otherwise `parseFloat`.  The `parseFloat` call
yields `NaN` only for the prefixes `"."`, `"+."`, `"-."`; that corner is
modelled as 0. -/
def coefOfStr (cs : List Char) : ℚ :=
  if cs = [] ∨ cs = ['+'] then 1
  else if cs = ['-'] then -1
  else (jsParseFloat cs).getD 0

/-- Signed coefficient of a term as both builders compute it from group 1 of
the term regex. -/
def termCoef (g1 : List Char) : ℚ := coefOfStr (stripWs g1)

/-- The variable name the primal builder reads from group 2: trim, then strip
one leading `*` and trim again. -/
def termVarPrimal (g2 : List Char) : List Char :=
  let v := jsTrim g2
  match v with
  | '*' :: r => jsTrim r
  | _ => v

/-- Scanner for `/x\d+/g` (`extractVariables`): every maximal `x<digits>`
substring, in order of occurrence. -/
def extractVarsGo : List Char → Option (List Char) → List (List Char)
  | [], none => []
  | [], some ds => if ds.isEmpty then [] else [('x' :: ds.reverse)]
  | c :: rest, none =>
    if c = 'x' then extractVarsGo rest (some []) else extractVarsGo rest none
  | c :: rest, some ds =>
    if c.isDigit then extractVarsGo rest (some (c :: ds))
    else if ds.isEmpty then
      (if c = 'x' then extractVarsGo rest (some []) else extractVarsGo rest none)
    else
      ('x' :: ds.reverse) :: (if c = 'x' then extractVarsGo rest (some []) else extractVarsGo rest none)

/-- Deduplication keeping first occurrences (JS `[...new Set(matches)]`). -/
def dedupFirstGo : List (List Char) → List (List Char) → List (List Char)
  | [], _ => []
  | a :: l, seen => if a ∈ seen then dedupFirstGo l seen else a :: dedupFirstGo l (a :: seen)

/-- `extractVariables`: all `x<digits>` matches of an expression, deduplicated
in first-occurrence order. -/
def extractVariables (s : List Char) : List (List Char) :=
  dedupFirstGo (extractVarsGo s none) []

/-- Sort key used by `parseInput`: `Number.parseInt(name.substring(1))`. -/
def varKey (v : List Char) : Nat := digitsVal (v.drop 1)

/-- Stable insertion into a key-sorted list (equal keys keep insertion order,
matching the stable JS `Array.prototype.sort`). -/
def insertByKey (a : List Char) : List (List Char) → List (List Char)
  | [] => [a]
  | b :: l => if varKey a ≤ varKey b then a :: b :: l else b :: insertByKey a l

/-- Stable sort by numeric suffix (any stable sort agrees with the stable JS
sort under the comparator `numA - numB`). -/
def sortByKey : List (List Char) → List (List Char)
  | [] => []
  | a :: l => insertByKey a (sortByKey l)

/-- Decimal digits of a natural number (for slack/dual variable names). -/
def natName (n : Nat) : List Char := (toString n).data

/-- `problemType` of both solver constructors. -/
inductive ProbType where
  | max
  | min
deriving DecidableEq

/-- The `throw new Error(...)` sites of the two solvers, one constructor per
message.  `outOfFuel` is a modelling artifact standing for non-termination of
the unbounded-iteration pivot loop. -/
inductive SolverError where
  | atLeastOneConstraint
  | objectiveRequired
  | noFeasibleSolution
  | invalidFormat (c : List Char)
  | invalidRHS (c : List Char)
  | noFiniteSolution
  | outOfFuel
deriving DecidableEq

/-- Element `j` of a row (`0` when out of range, matching JS `undefined`
outcomes that are never reached on solver states). -/
def atIdx (row : List ℚ) (j : Nat) : ℚ := (row.get? j).getD 0

/-- Row `i` of a matrix (`[]` when out of range, never reached on solver
states). -/
def getRow (M : List (List ℚ)) (i : Nat) : List ℚ := (M.get? i).getD []

/-- Entry `(i, j)` of a matrix (`0` when out of range, never reached on solver
states). -/
def entry (M : List (List ℚ)) (i j : Nat) : ℚ := atIdx (getRow M i) j

/-- JS `matrix[matrix.length - 1]`. -/
def lastRowOf (M : List (List ℚ)) : List ℚ := (M.getLast?).getD []

def mapWithIdx {α β : Type} (f : Nat → α → β) : Nat → List α → List β
  | _, [] => []
  | i, a :: l => f i a :: mapWithIdx f (i + 1) l

def zerosRow (k : Nat) : List ℚ := List.replicate k 0

/-- One term of the left side, applied to the row under construction:
assign `mult * coefficient` at the index of the term's variable
(`this.matrix[i][varIndex] = coef`, resp. `sign * coef` in the objective row;
the constraint rows use `mult = 1`).  Terms that are empty or whose variable
is unknown are skipped. -/
def applyTerm (vars : List (List Char)) (mult : ℚ) (row : List ℚ) (term : List Char) : List ℚ :=
  if term = [] then row
  else
    let g := matchTermPrimal term
    let coef := termCoef g.1
    let v := termVarPrimal g.2
    match vars.findIdx? (fun w => decide (w = v)) with
    | some k => row.set k (mult * coef)
    | none => row

def fillRowCoefs (vars : List (List Char)) (mult : ℚ) (row : List ℚ)
    (terms : List (List Char)) : List ℚ :=
  terms.foldl (applyTerm vars mult) row

/-- One constraint row of `initializeMatrix` (primal builder): split on the
relational operator (exactly two parts required), parse the RHS (`NaN`
rejected), set RHS and `Z` columns, fill coefficients, set the slack entry
`+1`/`-1`/absent according to the operator. -/
def primalConstraintRow (vars : List (List Char)) (n m i : Nat) (c : List Char) :
    Except SolverError (List ℚ) :=
  match splitRel c with
  | [l, r] =>
    match jsParseFloat (jsTrim r) with
    | none => .error (.invalidRHS c)
    | some rhs =>
      let row1 := (zerosRow (n + m + 2)).set (n + m + 1) rhs
      let row2 := row1.set (n + m) 0
      let terms := (splitSigns (jsTrim l)).map jsTrim
      let row3 := fillRowCoefs vars 1 row2 terms
      if containsSub c ['<', '='] then .ok (row3.set (n + i) 1)
      else if containsSub c ['>', '='] then .ok (row3.set (n + i) (-1))
      else .ok row3
  | _ => .error (.invalidFormat c)

/-- Objective row of `initializeMatrix`: coefficients multiplied by `-1` when
maximizing, `Z` column set to `1`, RHS left `0`. -/
def primalObjRow (vars : List (List Char)) (n m : Nat) (objective : List Char)
    (pt : ProbType) : List ℚ :=
  let sign : ℚ := if pt = .max then -1 else 1
  let terms := (splitSigns objective).map jsTrim
  (fillRowCoefs vars sign (zerosRow (n + m + 2)) terms).set (n + m) 1

def primalRowsGo (vars : List (List Char)) (n m : Nat) :
    Nat → List (List Char) → Except SolverError (List (List ℚ))
  | _, [] => .ok []
  | i, c :: rest =>
    match primalConstraintRow vars n m i c with
    | .error e => .error e
    | .ok row =>
      match primalRowsGo vars n m (i + 1) rest with
      | .error e => .error e
      | .ok rows => .ok (row :: rows)

/-- `initializeMatrix`: constraint rows in order, then the objective row. -/
def initializeMatrixE (vars cons : List (List Char)) (objective : List Char)
    (pt : ProbType) : Except SolverError (List (List ℚ)) :=
  match primalRowsGo vars vars.length cons.length 0 cons with
  | .error e => .error e
  | .ok rows => .ok (rows ++ [primalObjRow vars vars.length cons.length objective pt])

/-- `parseInput`'s variable collection: objective variables first, then unseen
constraint variables, deduplicated in first-occurrence order, sorted stably by
numeric suffix. -/
def collectVars (objective : List Char) (cons : List (List Char)) : List (List Char) :=
  sortByKey (dedupFirstGo
    (extractVariables objective ++ (cons.map extractVariables).flatten) [])

def slackNames (m : Nat) : List (List Char) :=
  (List.range m).map (fun i => 's' :: natName (i + 1))

def dualVarNames (m : Nat) : List (List Char) :=
  (List.range m).map (fun i => 'y' :: natName (i + 1))

/-- `SimplexSolver` state; `vars`/`slackVars` model `this.variables` /
`this.slackVariables` (renamed: `variables` is reserved in Lean 4). -/
structure PrimalSolver where
  objective : List Char
  constraints : List (List Char)
  problemType : ProbType
  vars : List (List Char)
  slackVars : List (List Char)
  matrix : List (List ℚ)
deriving DecidableEq

/-- One iteration of the constructor's direct-contradiction scan: same
whitespace-stripped left side, a `<=` upper bound and a `>=` lower bound with
`lower > upper` (both parsing as non-`NaN`). -/
def contraPair (ci cj : List Char) : Bool :=
  match splitRel ci, splitRel cj with
  | [li, ri], [lj, rj] =>
    if stripWs li = stripWs lj then
      (if containsSub ci ['<', '='] && containsSub cj ['>', '='] then
        match jsParseFloat ri, jsParseFloat rj with
        | some up, some lo => decide (up < lo)
        | _, _ => false
       else false)
      ||
      (if containsSub ci ['>', '='] && containsSub cj ['<', '='] then
        match jsParseFloat ri, jsParseFloat rj with
        | some lo, some up => decide (up < lo)
        | _, _ => false
       else false)
    else false
  | _, _ => false

/-- The constructor's double loop over pairs `i < j` of constraints. -/
def anyContra : List (List Char) → Bool
  | [] => false
  | c :: rest => rest.any (fun d => contraPair c d) || anyContra rest

/-- The `SimplexSolver` constructor: trim, reject empty input, run the
direct-contradiction scan (which throws "No feasible solution"), then
`parseInput`/`initializeMatrix`. -/
def primalMake (objective : String) (constraints : List String) (pt : ProbType) :
    Except SolverError PrimalSolver :=
  let obj := jsTrim objective.data
  let cons := (constraints.map (fun c => jsTrim c.data)).filter (fun c => !c.isEmpty)
  if cons.isEmpty then .error .atLeastOneConstraint
  else if obj.isEmpty then .error .objectiveRequired
  else if anyContra cons then .error .noFeasibleSolution
  else
    let vars := collectVars obj cons
    match initializeMatrixE vars cons obj pt with
    | .error e => .error e
    | .ok M =>
      .ok { objective := obj, constraints := cons, problemType := pt,
            vars := vars, slackVars := slackNames cons.length, matrix := M }

/-- The shared entering-column loop: running strict minimum initialised to
`0` / index `-1` (modelled as `none`); only strictly smaller entries replace
the champion, so the first occurrence of the minimum wins. -/
def pivotColAux : List ℚ → Nat → ℚ → Option Nat → Option Nat
  | [], _, _, best => best
  | v :: rest, i, minVal, best =>
    if v < minVal then pivotColAux rest (i + 1) v (some i)
    else pivotColAux rest (i + 1) minVal best

def canImproveRow (row : List ℚ) (bound : Nat) : Bool :=
  (row.take bound).any (fun v => decide (v < 0))

def findPivotColRow (row : List ℚ) (bound : Nat) : Option Nat :=
  pivotColAux (row.take bound) 0 0 none

/-- The shared leaving-row loop (minimum ratio test): rows with strictly
positive entry in the pivot column, ratio `RHS / entry`, strict improvement
only (ties keep the earlier row); `none` models the `-1` / throw outcome.
`getRhs` abstracts the RHS lookup (fixed column for the primal, last entry for
the dual); a missing RHS gives JS `NaN`, which never beats the champion. -/
def pivotRowAux (getRhs : List ℚ → Option ℚ) (c : Nat) :
    List (List ℚ) → Nat → Option (ℚ × Nat) → Option Nat
  | [], _, best => best.map (fun b => b.2)
  | row :: rest, i, best =>
    match row.get? c with
    | some v =>
      if 0 < v then
        match getRhs row with
        | some rv =>
          match best with
          | some b =>
            if rv / v < b.1 then pivotRowAux getRhs c rest (i + 1) (some (rv / v, i))
            else pivotRowAux getRhs c rest (i + 1) best
          | none => pivotRowAux getRhs c rest (i + 1) (some (rv / v, i))
        | none => pivotRowAux getRhs c rest (i + 1) best
      else pivotRowAux getRhs c rest (i + 1) best
    | none => pivotRowAux getRhs c rest (i + 1) best

def primalBound (st : PrimalSolver) : Nat := st.vars.length + st.constraints.length

def primalRhsIdx (st : PrimalSolver) : Nat := st.vars.length + st.constraints.length + 1

def primalCanImprove (st : PrimalSolver) : Bool :=
  canImproveRow (lastRowOf st.matrix) (primalBound st)

def primalFindPivotCol (st : PrimalSolver) : Option Nat :=
  findPivotColRow (lastRowOf st.matrix) (primalBound st)

def primalFindPivotRow (st : PrimalSolver) (c : Nat) : Option Nat :=
  pivotRowAux (fun row => row.get? (primalRhsIdx st)) c st.matrix.dropLast 0 none

/-- The shared Gauss-Jordan pivot: normalize the pivot row by the pivot value,
then subtract `factor × normalized pivot row` from every other row, where
`factor` is that row's (old) entry in the pivot column. -/
def pivotOp (M : List (List ℚ)) (r c : Nat) : List (List ℚ) :=
  let prow := getRow M r
  let pval := (prow.get? c).getD 0
  let npr := prow.map (fun x => x / pval)
  mapWithIdx (fun i row =>
    if i = r then npr
    else
      let factor := (row.get? c).getD 0
      mapWithIdx (fun j x => x - factor * ((npr.get? j).getD 0)) 0 row) 0 M

/-- `cloneMatrix` (`matrix.map(row => [...row])`): in the pure model this is
the identity on values; the heap model below gives it its aliasing meaning. -/
def cloneMatrix (M : List (List ℚ)) : List (List ℚ) := M.map (fun row => row)

structure PivotInfo where
  row : Nat
  col : Nat
  entering : List Char
  leaving : List Char
deriving DecidableEq

structure Step where
  table : List (List ℚ)
  pivotInfo : Option PivotInfo
deriving DecidableEq

/-- `Solution`; `vars` models the `variables` field. -/
structure Solution where
  optimalValue : ℚ
  vars : List (List Char × ℚ)
  feasible : Bool
deriving DecidableEq

def primalPivotInfo (st : PrimalSolver) (r c : Nat) : PivotInfo :=
  { row := r
    col := c
    entering :=
      if c < st.vars.length then (st.vars.get? c).getD []
      else (st.slackVars.get? (c - st.vars.length)).getD []
    leaving :=
      if r < st.slackVars.length then (st.slackVars.get? r).getD [] else ['Z'] }

/-- Tolerance `1e-8` of `extractSolution`. -/
def tolQ : ℚ := 1 / 10 ^ 8

/-- Is column `j` a unit column restricted to the constraint rows, apart from
row `i`?  (The `isUnit` inner loop.) -/
def isUnitCol (M : List (List ℚ)) (m i j : Nat) : Bool :=
  decide (∀ k, k < m → k ≠ i → |entry M k j| ≤ tolQ)

/-- The basic-variable scan of one constraint row (primal `extractSolution`):
near-1 entry, unit column, then prefer near-zero objective coefficient with an
immediate break for structural variables. -/
def basicColGo (M : List (List ℚ)) (n m i : Nat) :
    Nat → Nat → Option ℚ → Option Nat → Option Nat
  | 0, _, _, bcol => bcol
  | cnt + 1, j, best, bcol =>
    if |entry M i j - 1| < tolQ then
      if isUnitCol M m i j then
        let objC := |entry M (M.length - 1) j|
        if j < n ∧ objC < tolQ then some j
        else if (match best with | none => true | some b => decide (objC < b)) then
          basicColGo M n m i cnt (j + 1) (some objC) (some j)
        else basicColGo M n m i cnt (j + 1) best bcol
      else basicColGo M n m i cnt (j + 1) best bcol
    else basicColGo M n m i cnt (j + 1) best bcol

def findBasicCol (st : PrimalSolver) (i : Nat) : Option Nat :=
  basicColGo st.matrix st.vars.length st.constraints.length i
    (primalBound st) 0 none none

/-- The `variableValues` map after the row scan (all names start at `0`,
identified basic variables get their row's RHS). -/
def primalExtractVals (st : PrimalSolver) : List Char → ℚ :=
  (List.range st.constraints.length).foldl (fun vals i =>
    match findBasicCol st i with
    | some bc =>
      let rhsVal := entry st.matrix i (primalRhsIdx st)
      let name :=
        if bc < st.vars.length then (st.vars.get? bc).getD []
        else (st.slackVars.get? (bc - st.vars.length)).getD []
      fun x => if x = name then rhsVal else vals x
    | none => vals) (fun _ => (0 : ℚ))

/-- Primal `extractSolution`: basic-variable values, optimal value read from
the objective row's RHS and negated back for `min`, `feasible` always `true`. -/
def primalExtract (st : PrimalSolver) : Solution :=
  let vals := primalExtractVals st
  let ov := entry st.matrix (st.matrix.length - 1) (primalRhsIdx st)
  { optimalValue := if st.problemType = .min then -ov else ov
    vars :=
      st.vars.map (fun v => (v, vals v)) ++
      st.slackVars.map (fun s => (s, vals s))
    feasible := true }

/-- The `while (this.canImprove())` loop of `solve`, fuel-indexed.  The
`none` case of the pivot column is unreachable (`canImprove` guarantees a
negative entry); it is mapped to the same "No finite solution" error the
subsequent empty ratio test would produce. -/
def primalSolveLoop (fuel : Nat) (st : PrimalSolver) (steps : List Step) :
    Except SolverError (PrimalSolver × List Step) :=
  match fuel with
  | 0 => .error .outOfFuel
  | fuel + 1 =>
    if primalCanImprove st then
      match primalFindPivotCol st with
      | none => .error .noFiniteSolution
      | some c =>
        match primalFindPivotRow st c with
        | none => .error .noFiniteSolution
        | some r =>
          let pin := primalPivotInfo st r c
          let st2 := { st with matrix := pivotOp st.matrix r c }
          primalSolveLoop fuel st2 (steps ++ [⟨cloneMatrix st2.matrix, some pin⟩])
    else .ok (st, steps)

/-- `solve`: record the initial tableau (no `pivotInfo`), iterate, extract. -/
def primalSolve (fuel : Nat) (st : PrimalSolver) :
    Except SolverError (Solution × List Step) :=
  match primalSolveLoop fuel st [⟨cloneMatrix st.matrix, none⟩] with
  | .error e => .error e
  | .ok (st2, steps) => .ok (primalExtract st2, steps)

def mapE {α β : Type} (f : α → Except SolverError β) :
    List α → Except SolverError (List β)
  | [] => .ok []
  | a :: l =>
    match f a with
    | .error e => .error e
    | .ok b =>
      match mapE f l with
      | .error e => .error e
      | .ok bs => .ok (b :: bs)

/-- `DualSimplexSolver` state; `dualVars`/`slackVars`/`originalVars` model
`this.dualVariables`/`this.slackVariables`/`this.originalVariables`. -/
structure DualSolver where
  objective : List Char
  constraints : List (List Char)
  problemType : ProbType
  dualVars : List (List Char)
  slackVars : List (List Char)
  originalVars : List (List Char)
  matrix : List (List ℚ)
deriving DecidableEq

/-- The split step the dual builder runs on every constraint: it validates the
two-part shape (`Invalid constraint format`) but — unlike the primal builder —
never checks the RHS for `NaN`. -/
def dualParts (c : List Char) : Except SolverError (List Char × List Char) :=
  match splitRel c with
  | [l, r] => .ok (l, r)
  | _ => .error (.invalidFormat c)

/-- First matching term's coefficient: the dual builder `break`s at the first
term whose `x<digits>` part equals the target; `0` when no term matches. -/
def dualCoefOf (terms : List (List Char)) (target : List Char) : ℚ :=
  match terms.findSome? (fun t =>
    if t = [] then none
    else
      match matchTermDual t with
      | none => none
      | some g => if g.2 = target then some (termCoef g.1) else none) with
  | some c => c
  | none => 0

/-- Constraint row `j` of `buildDualTableau`: the coefficients of primal
variable `j` across all primal constraints, a `+1` slack at column `m + j`,
`0` in the `p` column, and the objective coefficient `c_j` as RHS. -/
def dualConstraintRow (cons : List (List Char)) (n : Nat) (objTerms : List (List Char))
    (vars : List (List Char)) (j : Nat) : Except SolverError (List ℚ) :=
  match mapE (fun c =>
      match dualParts c with
      | .error e => .error e
      | .ok lr => .ok (dualCoefOf ((splitSigns (jsTrim lr.1)).map jsTrim) ((vars.get? j).getD []))) cons with
  | .error e => .error e
  | .ok coefs =>
    let cj := dualCoefOf objTerms ((vars.get? j).getD [])
    .ok (coefs ++ (List.range n).map (fun k => if k = j then (1 : ℚ) else 0) ++ [0, cj])

/-- Objective row of `buildDualTableau`: `-b_i` per dual variable, `p` column
`1`, RHS `0`.  The source parses `b_i` with `parseFloat` and performs **no**
`isNaN` check; a `NaN` RHS is modelled as `0` here (only reachable for
non-numeric RHS strings, where the real code stores `NaN`). -/
def dualObjRow (cons : List (List Char)) (n : Nat) : Except SolverError (List ℚ) :=
  match mapE (fun c =>
      match dualParts c with
      | .error e => .error e
      | .ok lr => .ok (-((jsParseFloat (jsTrim lr.2)).getD 0))) cons with
  | .error e => .error e
  | .ok negs => .ok (negs ++ (List.range n).map (fun _ => (0 : ℚ)) ++ [1, 0])

/-- `buildDualTableau`: the `n` dual constraint rows (one per primal
variable) followed by the dual objective row. -/
def buildDualTableauE (cons : List (List Char)) (vars : List (List Char))
    (objTerms : List (List Char)) : Except SolverError (List (List ℚ)) :=
  match mapE (dualConstraintRow cons vars.length objTerms vars) (List.range vars.length) with
  | .error e => .error e
  | .ok rows =>
    match dualObjRow cons vars.length with
    | .error e => .error e
    | .ok orow => .ok (rows ++ [orow])

/-- The `DualSimplexSolver` constructor: trim, reject empty input (no
contradiction scan here), then `buildDualTableau`. -/
def dualMake (objective : String) (constraints : List String) (pt : ProbType) :
    Except SolverError DualSolver :=
  let obj := jsTrim objective.data
  let cons := (constraints.map (fun c => jsTrim c.data)).filter (fun c => !c.isEmpty)
  if cons.isEmpty then .error .atLeastOneConstraint
  else if obj.isEmpty then .error .objectiveRequired
  else
    let vars := collectVars obj cons
    let objTerms := (splitSigns obj).map jsTrim
    match buildDualTableauE cons vars objTerms with
    | .error e => .error e
    | .ok M =>
      .ok { objective := obj, constraints := cons, problemType := pt,
            dualVars := dualVarNames cons.length, slackVars := slackNames vars.length,
            originalVars := vars, matrix := M }

def dualBound (st : DualSolver) : Nat := st.dualVars.length + st.slackVars.length

def dualRhsIdx (st : DualSolver) : Nat := st.dualVars.length + st.slackVars.length + 1

def dualCanImprove (st : DualSolver) : Bool :=
  canImproveRow (lastRowOf st.matrix) (dualBound st)

def dualFindPivotCol (st : DualSolver) : Option Nat :=
  findPivotColRow (lastRowOf st.matrix) (dualBound st)

def dualFindPivotRow (st : DualSolver) (c : Nat) : Option Nat :=
  pivotRowAux (fun row => row.get? (row.length - 1)) c st.matrix.dropLast 0 none

def dualPivotInfo (st : DualSolver) (r c : Nat) : PivotInfo :=
  { row := r
    col := c
    entering :=
      if c < st.dualVars.length then (st.dualVars.get? c).getD []
      else (st.slackVars.get? (c - st.dualVars.length)).getD []
    leaving :=
      if r < st.originalVars.length then (st.originalVars.get? r).getD [] else ['p'] }

/-- The basic-variable scan of the dual `extractSolution`: first dual-variable
column that is a unit column over the constraint rows. -/
def dualBasicCol (st : DualSolver) (i : Nat) : Option Nat :=
  (List.range st.dualVars.length).find? (fun j =>
    decide (|entry st.matrix i j - 1| < tolQ) &&
    decide (∀ k, k < st.originalVars.length → k ≠ i → |entry st.matrix k j| ≤ tolQ))

/-- `variableValues` of the dual `extractSolution`: primal variables read from
the slack columns of the objective row, dual variables from unit columns. -/
def dualExtractVals (st : DualSolver) : List Char → ℚ :=
  let vals1 := (List.range st.slackVars.length).foldl (fun vals j =>
    let name := (st.slackVars.get? j).getD []
    let v := ((lastRowOf st.matrix).get? (st.dualVars.length + j)).getD 0
    fun x => if x = name then v else vals x) (fun _ => (0 : ℚ))
  (List.range st.originalVars.length).foldl (fun vals i =>
    match dualBasicCol st i with
    | some bc =>
      let rhsVal := entry st.matrix i (dualRhsIdx st)
      let name := (st.dualVars.get? bc).getD []
      fun x => if x = name then rhsVal else vals x
    | none => vals) vals1

/-- Dual `extractSolution`: the optimal value is the objective row's RHS,
**never** negated (no `problemType` use), `feasible` always `true`. -/
def dualExtract (st : DualSolver) : Solution :=
  let vals := dualExtractVals st
  { optimalValue := entry st.matrix (st.matrix.length - 1) (dualRhsIdx st)
    vars :=
      st.dualVars.map (fun v => (v, vals v)) ++
      st.slackVars.map (fun s => (s, vals s))
    feasible := true }

/-- The dual `solve` loop (identical structure to the primal one; its
`findPivotRow` throws "No finite solution" when no ratio-test row exists). -/
def dualSolveLoop (fuel : Nat) (st : DualSolver) (steps : List Step) :
    Except SolverError (DualSolver × List Step) :=
  match fuel with
  | 0 => .error .outOfFuel
  | fuel + 1 =>
    if dualCanImprove st then
      match dualFindPivotCol st with
      | none => .error .noFiniteSolution
      | some c =>
        match dualFindPivotRow st c with
        | none => .error .noFiniteSolution
        | some r =>
          let pin := dualPivotInfo st r c
          let st2 := { st with matrix := pivotOp st.matrix r c }
          dualSolveLoop fuel st2 (steps ++ [⟨cloneMatrix st2.matrix, some pin⟩])
    else .ok (st, steps)

def dualSolve (fuel : Nat) (st : DualSolver) :
    Except SolverError (Solution × List Step) :=
  match dualSolveLoop fuel st [⟨cloneMatrix st.matrix, none⟩] with
  | .error e => .error e
  | .ok (st2, steps) => .ok (dualExtract st2, steps)

/-- The primal solver built from the spec's round-trip example (§8), used as a
concrete evaluation point by several witnesses below. -/
def demoP : PrimalSolver :=
  (primalMake "3x1 + 5x2" ["x1 <= 4", "2x2 <= 12", "3x1 + 2x2 <= 18"] .max).toOption.getD
    { objective := [], constraints := [], problemType := .max,
      vars := [], slackVars := [], matrix := [] }

/-- The dual solver built from the same example. -/
def demoD : DualSolver :=
  (dualMake "3x1 + 5x2" ["x1 <= 4", "2x2 <= 12", "3x1 + 2x2 <= 18"] .max).toOption.getD
    { objective := [], constraints := [], problemType := .max,
      dualVars := [], slackVars := [], originalVars := [], matrix := [] }

/-! ### General list helpers -/

theorem mapWithIdx_length {α β : Type} (f : Nat → α → β) (i : Nat) (l : List α) :
    (mapWithIdx f i l).length = l.length := by
  induction l generalizing i with
  | nil => rfl
  | cons a l ih => simp [mapWithIdx, ih]

theorem mapWithIdx_get? {α β : Type} (f : Nat → α → β) (i j : Nat) (l : List α) :
    (mapWithIdx f i l).get? j = (l.get? j).map (f (i + j)) := by
  induction l generalizing i j with
  | nil => simp [mapWithIdx]
  | cons a l ih =>
    cases j with
    | zero => simp [mapWithIdx]
    | succ j =>
      have harg : i + 1 + j = i + (j + 1) := by omega
      calc (mapWithIdx f i (a :: l)).get? (j + 1)
          = (mapWithIdx f (i + 1) l).get? j := rfl
        _ = (l.get? j).map (f (i + 1 + j)) := ih (i + 1) j
        _ = ((a :: l).get? (j + 1)).map (f (i + (j + 1))) := by rw [harg]; rfl

/-! ### Entering-column rule -/

theorem pivotColAux_eq_best (l : List ℚ) (i : Nat) (minVal : ℚ) (best : Option Nat)
    (h : ∀ v ∈ l, minVal ≤ v) : pivotColAux l i minVal best = best := by
  induction l generalizing i with
  | nil => rfl
  | cons v rest ih =>
    have hv : ¬ v < minVal := not_lt.mpr (h v (by simp))
    simp only [pivotColAux, if_neg hv]
    exact ih _ (fun w hw => h w (by simp [hw]))

theorem pivotColAux_min (l : List ℚ) (i : Nat) (minVal : ℚ) (best : Option Nat)
    (h : ∃ v ∈ l, v < minVal) :
    ∃ k, ∃ hk : k < l.length,
      pivotColAux l i minVal best = some (i + k) ∧
      l.get ⟨k, hk⟩ < minVal ∧
      (∀ j, (hj : j < l.length) → l.get ⟨k, hk⟩ ≤ l.get ⟨j, hj⟩) ∧
      (∀ j, (hj : j < l.length) → j < k → l.get ⟨k, hk⟩ < l.get ⟨j, hj⟩) := by
  induction l generalizing i minVal best with
  | nil => simp at h
  | cons v rest ih =>
    by_cases hv : v < minVal
    · simp only [pivotColAux, if_pos hv]
      by_cases hr : ∃ w ∈ rest, w < v
      · obtain ⟨k, hk, heq, hlt, hle, hstrict⟩ := ih (i + 1) v (some i) hr
        refine ⟨k + 1, Nat.succ_lt_succ hk, ?_, ?_, ?_, ?_⟩
        · rw [heq]; congr 1; omega
        · simpa using lt_trans hlt hv
        · intro j hj
          cases j with
          | zero => simpa using le_of_lt hlt
          | succ j => simpa using hle j (by simpa using hj)
        · intro j hj hjk
          cases j with
          | zero => simpa using hlt
          | succ j => simpa using hstrict j (by simpa using hj) (by omega)
      · push_neg at hr
        have heq : pivotColAux rest (i + 1) v (some i) = some i :=
          pivotColAux_eq_best rest (i + 1) v (some i) hr
        refine ⟨0, Nat.succ_pos _, ?_, by simpa using hv, ?_, ?_⟩
        · rw [heq]; congr 1
        · intro j hj
          cases j with
          | zero => simp
          | succ j =>
            simpa using hr (rest.get ⟨j, by simpa using hj⟩) (rest.get_mem _ _)
        · intro j hj hj0; omega
    · have hminv : minVal ≤ v := not_lt.mp hv
      simp only [pivotColAux, if_neg hv]
      have hr : ∃ w ∈ rest, w < minVal := by
        obtain ⟨w, hw, hwlt⟩ := h
        rcases List.mem_cons.mp hw with rfl | hw2
        · exact absurd hwlt hv
        · exact ⟨w, hw2, hwlt⟩
      obtain ⟨k, hk, heq, hlt, hle, hstrict⟩ := ih (i + 1) minVal best hr
      refine ⟨k + 1, Nat.succ_lt_succ hk, ?_, by simpa using hlt, ?_, ?_⟩
      · rw [heq]; congr 1; omega
      · intro j hj
        cases j with
        | zero => simpa using le_of_lt (lt_of_lt_of_le hlt hminv)
        | succ j => simpa using hle j (by simpa using hj)
      · intro j hj hjk
        cases j with
        | zero => simpa using lt_of_lt_of_le hlt hminv
        | succ j => simpa using hstrict j (by simpa using hj) (by omega)

theorem take_get?_lt (row : List ℚ) (bound j : Nat) (hjb : j < bound) :
    (row.take bound).get? j = row.get? j := by
  rw [List.get?_eq_getElem?, List.get?_eq_getElem?, List.getElem?_take_of_lt hjb]

theorem mem_take_index (row : List ℚ) (bound : Nat) (v : ℚ) (hv : v ∈ row.take bound) :
    ∃ j, j < bound ∧ row.get? j = some v := by
  obtain ⟨j, hj⟩ := List.mem_iff_get?.mp hv
  have hjb : j < bound := by
    by_contra hge
    rw [List.get?_eq_getElem?, List.getElem?_eq_none] at hj
    · exact Option.noConfusion hj
    · simp only [List.length_take]
      omega
  exact ⟨j, hjb, by rwa [take_get?_lt row bound j hjb] at hj⟩

theorem canImproveRow_iff_exists (row : List ℚ) (bound : Nat) :
    canImproveRow row bound = true ↔ ∃ v ∈ row.take bound, v < 0 := by
  rw [canImproveRow, List.any_eq_true]
  constructor
  · rintro ⟨v, hv, hd⟩
    exact ⟨v, hv, by simpa using hd⟩
  · rintro ⟨v, hv, hd⟩
    exact ⟨v, hv, by simpa using hd⟩

theorem atIdx_of_get? (row : List ℚ) (j : Nat) (v : ℚ) (h : row.get? j = some v) :
    atIdx row j = v := by
  rw [atIdx, h]
  rfl

theorem atIdx_of_len_le (row : List ℚ) (j : Nat) (h : row.length ≤ j) :
    atIdx row j = 0 := by
  rw [atIdx, List.get?_eq_getElem?, List.getElem?_eq_none h]
  rfl

theorem get?_of_lt (row : List ℚ) (j : Nat) (hj : j < row.length) :
    row.get? j = some (atIdx row j) := by
  rcases hq : row.get? j with _ | v
  · rw [List.get?_eq_getElem?] at hq
    rw [List.getElem?_eq_none_iff] at hq
    omega
  · rw [atIdx_of_get? row j v hq]

theorem canImproveRow_iff (row : List ℚ) (bound : Nat) :
    canImproveRow row bound = true ↔ ∃ j, j < bound ∧ atIdx row j < 0 := by
  rw [canImproveRow_iff_exists]
  constructor
  · rintro ⟨v, hv, hlt⟩
    obtain ⟨j, hjb, hrow⟩ := mem_take_index row bound v hv
    exact ⟨j, hjb, by rw [atIdx_of_get? row j v hrow]; exact hlt⟩
  · rintro ⟨j, hjb, hlt⟩
    rcases hq : row.get? j with _ | v
    · rw [atIdx, hq] at hlt
      norm_num at hlt
    · refine ⟨v, ?_, by rw [atIdx_of_get? row j v hq] at hlt; exact hlt⟩
      exact List.mem_iff_get?.mpr ⟨j, by rw [take_get?_lt row bound j hjb]; exact hq⟩

theorem findPivotColRow_none_iff (row : List ℚ) (bound : Nat) :
    findPivotColRow row bound = none ↔ ∀ v ∈ row.take bound, 0 ≤ v := by
  constructor
  · intro h
    by_contra hneg
    push_neg at hneg
    obtain ⟨v, hv, hvlt⟩ := hneg
    obtain ⟨k, hk, heq, _⟩ := pivotColAux_min (row.take bound) 0 0 none ⟨v, hv, hvlt⟩
    rw [findPivotColRow] at h
    rw [h] at heq
    exact Option.noConfusion heq
  · intro h
    exact pivotColAux_eq_best _ _ _ _ h

theorem canImproveRow_iff_isSome (row : List ℚ) (bound : Nat) :
    canImproveRow row bound = true ↔ (findPivotColRow row bound).isSome := by
  rw [canImproveRow_iff_exists, Option.isSome_iff_ne_none, Ne, findPivotColRow_none_iff]
  constructor
  · rintro ⟨v, hv, hlt⟩ hall
    exact absurd (hall v hv) (not_le.mpr hlt)
  · intro h
    by_contra hno
    push_neg at hno
    exact h hno

theorem findPivotColRow_some (row : List ℚ) (bound : Nat) (c : Nat)
    (h : findPivotColRow row bound = some c) :
    c < bound ∧ c < row.length ∧ atIdx row c < 0 ∧
    (∀ j, j < bound → atIdx row c ≤ atIdx row j) ∧
    (∀ j, j < c → atIdx row c < atIdx row j) := by
  have hneg : ∃ v ∈ row.take bound, v < 0 := by
    by_contra hno
    push_neg at hno
    rw [(findPivotColRow_none_iff row bound).mpr hno] at h
    exact Option.noConfusion h
  obtain ⟨k, hk, heq, hlt, hle, hstrict⟩ := pivotColAux_min (row.take bound) 0 0 none hneg
  rw [findPivotColRow] at h
  rw [h] at heq
  have hck : c = k := by
    have := Option.some.inj heq
    omega
  subst hck
  have htl : (row.take bound).length = min bound row.length := by simp
  have hcb : c < bound := by omega
  have hclen : c < row.length := by omega
  have hgetc : row.get? c = some ((row.take bound).get ⟨c, hk⟩) := by
    rw [← take_get?_lt row bound c hcb]
    exact List.get?_eq_get hk
  have hac : atIdx row c = (row.take bound).get ⟨c, hk⟩ := atIdx_of_get? _ _ _ hgetc
  refine ⟨hcb, hclen, by rw [hac]; exact hlt, ?_, ?_⟩
  · intro j hjb
    by_cases hjl : j < (row.take bound).length
    · have hgetj : row.get? j = some ((row.take bound).get ⟨j, hjl⟩) := by
        rw [← take_get?_lt row bound j hjb]
        exact List.get?_eq_get hjl
      rw [hac, atIdx_of_get? _ _ _ hgetj]
      exact hle j hjl
    · have hjlen : row.length ≤ j := by omega
      rw [hac, atIdx_of_len_le row j hjlen]
      exact le_of_lt hlt
  · intro j hjc
    have hjl : j < (row.take bound).length := by omega
    have hjb : j < bound := by omega
    have hgetj : row.get? j = some ((row.take bound).get ⟨j, hjl⟩) := by
      rw [← take_get?_lt row bound j hjb]
      exact List.get?_eq_get hjl
    rw [hac, atIdx_of_get? _ _ _ hgetj]
    exact hstrict j hjl hjc

/-! ### Leaving-row rule (minimum ratio test) -/

/-- Candidacy in the ratio test: strictly positive entry in the pivot column
and a present RHS (a missing RHS gives JS `NaN`, which never wins). -/
def rowCand (getRhs : List ℚ → Option ℚ) (c : Nat) (row : List ℚ) : Prop :=
  0 < atIdx row c ∧ (getRhs row).isSome

instance (getRhs : List ℚ → Option ℚ) (c : Nat) (row : List ℚ) :
    Decidable (rowCand getRhs c row) := by
  unfold rowCand
  infer_instance

/-- The ratio `RHS / entry` of a row. -/
def rowRatV (getRhs : List ℚ → Option ℚ) (c : Nat) (row : List ℚ) : ℚ :=
  ((getRhs row).getD 0) / atIdx row c

theorem pivotRowAux_stay (getRhs : List ℚ → Option ℚ) (c : Nat)
    (rows : List (List ℚ)) (i : Nat) (b : ℚ × Nat)
    (h : ∀ row ∈ rows, rowCand getRhs c row → b.1 ≤ rowRatV getRhs c row) :
    pivotRowAux getRhs c rows i (some b) = some b.2 := by
  induction rows generalizing i with
  | nil => rfl
  | cons row rest ih =>
    have hrest : ∀ r ∈ rest, rowCand getRhs c r → b.1 ≤ rowRatV getRhs c r :=
      fun r hr => h r (by simp [hr])
    rcases hq : row.get? c with _ | v
    · simp only [pivotRowAux, hq]
      exact ih _ hrest
    · by_cases hv : 0 < v
      · rcases hrhs : getRhs row with _ | rv
        · simp only [pivotRowAux, hq, hrhs, if_pos hv]
          exact ih _ hrest
        · have hcand : rowCand getRhs c row :=
            ⟨by rw [atIdx_of_get? row c v hq]; exact hv, by rw [hrhs]; rfl⟩
          have hge : b.1 ≤ rv / v := by
            have := h row (by simp) hcand
            rwa [rowRatV, hrhs, atIdx_of_get? row c v hq] at this
          simp only [pivotRowAux, hq, hrhs, if_pos hv, if_neg (not_lt.mpr hge)]
          exact ih _ hrest
      · simp only [pivotRowAux, hq, if_neg hv]
        exact ih _ hrest

theorem pivotRowAux_none (getRhs : List ℚ → Option ℚ) (c : Nat)
    (rows : List (List ℚ)) (i : Nat)
    (h : ∀ row ∈ rows, ¬ rowCand getRhs c row) :
    pivotRowAux getRhs c rows i none = none := by
  induction rows generalizing i with
  | nil => rfl
  | cons row rest ih =>
    have hrest : ∀ r ∈ rest, ¬ rowCand getRhs c r := fun r hr => h r (by simp [hr])
    rcases hq : row.get? c with _ | v
    · simp only [pivotRowAux, hq]
      exact ih _ hrest
    · by_cases hv : 0 < v
      · rcases hrhs : getRhs row with _ | rv
        · simp only [pivotRowAux, hq, hrhs, if_pos hv]
          exact ih _ hrest
        · exact absurd ⟨by rw [atIdx_of_get? row c v hq]; exact hv, by rw [hrhs]; rfl⟩
            (h row (by simp))
      · simp only [pivotRowAux, hq, if_neg hv]
        exact ih _ hrest

theorem pivotRowAux_min (getRhs : List ℚ → Option ℚ) (c : Nat)
    (rows : List (List ℚ)) (i : Nat) (best : Option (ℚ × Nat))
    (h : ∃ row ∈ rows, rowCand getRhs c row ∧
      ∀ b, best = some b → rowRatV getRhs c row < b.1) :
    ∃ k, ∃ hk : k < rows.length,
      pivotRowAux getRhs c rows i best = some (i + k) ∧
      rowCand getRhs c (rows.get ⟨k, hk⟩) ∧
      (∀ b, best = some b → rowRatV getRhs c (rows.get ⟨k, hk⟩) < b.1) ∧
      (∀ j, (hj : j < rows.length) → rowCand getRhs c (rows.get ⟨j, hj⟩) →
        rowRatV getRhs c (rows.get ⟨k, hk⟩) ≤ rowRatV getRhs c (rows.get ⟨j, hj⟩)) ∧
      (∀ j, (hj : j < rows.length) → j < k → rowCand getRhs c (rows.get ⟨j, hj⟩) →
        rowRatV getRhs c (rows.get ⟨k, hk⟩) < rowRatV getRhs c (rows.get ⟨j, hj⟩)) := by
  induction rows generalizing i best with
  | nil => simp at h
  | cons row rest ih =>
    by_cases hcand : rowCand getRhs c row
    · rcases hq : row.get? c with _ | v
      · rw [rowCand, atIdx, hq] at hcand
        norm_num at hcand
      · have hv : 0 < v := by
          have := hcand.1
          rwa [atIdx_of_get? row c v hq] at this
        rcases hrhs : getRhs row with _ | rv
        · rw [rowCand, hrhs] at hcand
          simp at hcand
        · have hrat : rowRatV getRhs c row = rv / v := by
            rw [rowRatV, hrhs, atIdx_of_get? row c v hq]
            rfl
          by_cases hbeat : ∀ b, best = some b → rv / v < b.1
          · -- the head becomes the new champion
            have hred : pivotRowAux getRhs c (row :: rest) i best =
                pivotRowAux getRhs c rest (i + 1) (some (rv / v, i)) := by
              rcases best with _ | b0
              · simp only [pivotRowAux, hq, hrhs, if_pos hv]
              · simp only [pivotRowAux, hq, hrhs, if_pos hv, if_pos (hbeat b0 rfl)]
            rw [hred]
            by_cases hr : ∃ r2 ∈ rest, rowCand getRhs c r2 ∧ rowRatV getRhs c r2 < rv / v
            · obtain ⟨r2, hr2, hc2, hlt2⟩ := hr
              obtain ⟨k, hk, heq, hck, hcb, hle, hstrict⟩ :=
                ih (i + 1) (some (rv / v, i))
                  ⟨r2, hr2, hc2, fun b hb => by rw [← Option.some.inj hb]; exact hlt2⟩
              have hbv : rowRatV getRhs c (rest.get ⟨k, hk⟩) < rv / v := hcb (rv / v, i) rfl
              refine ⟨k + 1, Nat.succ_lt_succ hk, ?_, hck, ?_, ?_, ?_⟩
              · rw [heq]
                congr 1
                omega
              · intro b hb
                exact lt_trans hbv (hbeat b hb)
              · intro j hj hcj
                cases j with
                | zero =>
                  show rowRatV getRhs c (rest.get ⟨k, hk⟩) ≤ rowRatV getRhs c row
                  rw [hrat]
                  exact le_of_lt hbv
                | succ j =>
                  exact hle j (Nat.lt_of_succ_lt_succ hj) hcj
              · intro j hj hjk hcj
                cases j with
                | zero =>
                  show rowRatV getRhs c (rest.get ⟨k, hk⟩) < rowRatV getRhs c row
                  rw [hrat]
                  exact hbv
                | succ j =>
                  exact hstrict j (Nat.lt_of_succ_lt_succ hj) (by omega) hcj
            · push_neg at hr
              have hstay : pivotRowAux getRhs c rest (i + 1) (some (rv / v, i)) = some i :=
                pivotRowAux_stay getRhs c rest (i + 1) (rv / v, i)
                  (fun r2 h2 hc2 => not_lt.mp (fun hlt2 => absurd hlt2 (by simpa using hr r2 h2 hc2)))
              refine ⟨0, Nat.succ_pos _, by rw [hstay]; congr 1, hcand, ?_, ?_, ?_⟩
              · intro b hb
                show rowRatV getRhs c row < b.1
                rw [hrat]
                exact hbeat b hb
              · intro j hj hcj
                cases j with
                | zero =>
                  exact le_refl _
                | succ j =>
                  show rowRatV getRhs c row ≤ rowRatV getRhs c (rest.get ⟨j, Nat.lt_of_succ_lt_succ hj⟩)
                  rw [hrat]
                  exact hr _ (rest.get_mem _ _) hcj
              · intro j hj hj0 hcj
                omega
          · -- the previous champion survives the head
            push_neg at hbeat
            obtain ⟨b, hb, hble⟩ := hbeat
            subst hb
            have hred : pivotRowAux getRhs c (row :: rest) i (some b) =
                pivotRowAux getRhs c rest (i + 1) (some b) := by
              simp only [pivotRowAux, hq, hrhs, if_pos hv, if_neg (not_lt.mpr hble)]
            rw [hred]
            have hwit : ∃ r2 ∈ rest, rowCand getRhs c r2 ∧
                ∀ b2, (some b : Option (ℚ × Nat)) = some b2 → rowRatV getRhs c r2 < b2.1 := by
              obtain ⟨r2, hr2, hc2, hlt2⟩ := h
              rcases List.mem_cons.mp hr2 with rfl | hr2b
              · exact absurd (by simpa [hrat] using hlt2 b rfl) (not_lt.mpr hble)
              · exact ⟨r2, hr2b, hc2, hlt2⟩
            obtain ⟨k, hk, heq, hck, hcb, hle, hstrict⟩ := ih (i + 1) (some b) hwit
            have hbv : rowRatV getRhs c (rest.get ⟨k, hk⟩) < b.1 := hcb b rfl
            refine ⟨k + 1, Nat.succ_lt_succ hk, ?_, hck, ?_, ?_, ?_⟩
            · rw [heq]
              congr 1
              omega
            · intro b2 hb2
              rw [← Option.some.inj hb2]
              exact hbv
            · intro j hj hcj
              cases j with
              | zero =>
                show rowRatV getRhs c (rest.get ⟨k, hk⟩) ≤ rowRatV getRhs c row
                rw [hrat]
                exact le_of_lt (lt_of_lt_of_le hbv hble)
              | succ j =>
                exact hle j (Nat.lt_of_succ_lt_succ hj) hcj
            · intro j hj hjk hcj
              cases j with
              | zero =>
                show rowRatV getRhs c (rest.get ⟨k, hk⟩) < rowRatV getRhs c row
                rw [hrat]
                exact lt_of_lt_of_le hbv hble
              | succ j =>
                exact hstrict j (Nat.lt_of_succ_lt_succ hj) (by omega) hcj
    · -- head not a candidate: skipped
      have hskip : pivotRowAux getRhs c (row :: rest) i best =
          pivotRowAux getRhs c rest (i + 1) best := by
        rcases hq : row.get? c with _ | v
        · simp only [pivotRowAux, hq]
        · by_cases hv : 0 < v
          · rcases hrhs : getRhs row with _ | rv
            · simp only [pivotRowAux, hq, hrhs, if_pos hv]
            · exact absurd ⟨by rw [atIdx_of_get? row c v hq]; exact hv, by rw [hrhs]; rfl⟩ hcand
          · simp only [pivotRowAux, hq, if_neg hv]
      have hwit : ∃ r2 ∈ rest, rowCand getRhs c r2 ∧
          ∀ b, best = some b → rowRatV getRhs c r2 < b.1 := by
        obtain ⟨r2, hr2, hc2, hlt2⟩ := h
        rcases List.mem_cons.mp hr2 with rfl | hr2b
        · exact absurd hc2 hcand
        · exact ⟨r2, hr2b, hc2, hlt2⟩
      obtain ⟨k, hk, heq, hck, hcb, hle, hstrict⟩ := ih (i + 1) best hwit
      refine ⟨k + 1, Nat.succ_lt_succ hk, ?_, hck, ?_, ?_, ?_⟩
      · rw [hskip, heq]
        congr 1
        omega
      · intro b hb
        exact hcb b hb
      · intro j hj hcj
        cases j with
        | zero =>
          exact absurd hcj hcand
        | succ j =>
          exact hle j (Nat.lt_of_succ_lt_succ hj) hcj
      · intro j hj hjk hcj
        cases j with
        | zero =>
          exact absurd hcj hcand
        | succ j =>
          exact hstrict j (Nat.lt_of_succ_lt_succ hj) (by omega) hcj

/-! ### Solver-state well-formedness -/

/-- Every row of the matrix has width `w`. -/
def matrixWF (M : List (List ℚ)) (w : Nat) : Prop := ∀ row ∈ M, row.length = w

instance (M : List (List ℚ)) (w : Nat) : Decidable (matrixWF M w) := by
  unfold matrixWF
  infer_instance

/-- Shape invariant of primal states: `m + 1` rows of width `n + m + 2`. -/
def primalWF (st : PrimalSolver) : Prop :=
  st.matrix.length = st.constraints.length + 1 ∧ matrixWF st.matrix (primalBound st + 2)

/-- Shape invariant of dual states: `n + 1` rows of width `m + n + 2`. -/
def dualWF (st : DualSolver) : Prop :=
  st.matrix.length = st.originalVars.length + 1 ∧ matrixWF st.matrix (dualBound st + 2)

instance (st : PrimalSolver) : Decidable (primalWF st) := by
  unfold primalWF
  infer_instance

instance (st : DualSolver) : Decidable (dualWF st) := by
  unfold dualWF
  infer_instance

theorem getRow_mem (M : List (List ℚ)) (i : Nat) (hi : i < M.length) :
    getRow M i ∈ M := by
  rw [getRow]
  rcases hq : M.get? i with _ | row
  · rw [List.get?_eq_getElem?, List.getElem?_eq_none_iff] at hq
    omega
  · simpa using List.get?_mem hq

theorem getRow_len (M : List (List ℚ)) (w i : Nat) (hwf : matrixWF M w) (hi : i < M.length) :
    (getRow M i).length = w :=
  hwf _ (getRow_mem M i hi)

theorem dropLast_get?_eq (M : List (List ℚ)) (i : Nat) (hi : i < M.length - 1) :
    M.dropLast.get? i = M.get? i := by
  rw [List.get?_eq_getElem?, List.get?_eq_getElem?, List.getElem?_dropLast, if_pos hi]

theorem dropLast_get_eq_getRow (M : List (List ℚ)) (i : Nat) (hi : i < M.dropLast.length) :
    M.dropLast.get ⟨i, hi⟩ = getRow M i := by
  have hi2 : i < M.length - 1 := by simpa using hi
  have h1 : M.dropLast.get? i = some (M.dropLast.get ⟨i, hi⟩) := List.get?_eq_get hi
  rw [dropLast_get?_eq M i hi2] at h1
  rw [getRow, h1]
  rfl

/-! ### Loop-shape facts -/

theorem primalSolveLoop_stop (fuel : Nat) (st : PrimalSolver) (steps : List Step)
    (h : primalCanImprove st = false) :
    primalSolveLoop (fuel + 1) st steps = .ok (st, steps) := by
  simp [primalSolveLoop, h]

theorem dualSolveLoop_stop (fuel : Nat) (st : DualSolver) (steps : List Step)
    (h : dualCanImprove st = false) :
    dualSolveLoop (fuel + 1) st steps = .ok (st, steps) := by
  simp [dualSolveLoop, h]

theorem primalSolveLoop_unbounded (fuel : Nat) (st : PrimalSolver) (steps : List Step) (c : Nat)
    (h1 : primalCanImprove st = true) (h2 : primalFindPivotCol st = some c)
    (h3 : primalFindPivotRow st c = none) :
    primalSolveLoop (fuel + 1) st steps = .error .noFiniteSolution := by
  simp [primalSolveLoop, h1, h2, h3]

theorem dualSolveLoop_unbounded (fuel : Nat) (st : DualSolver) (steps : List Step) (c : Nat)
    (h1 : dualCanImprove st = true) (h2 : dualFindPivotCol st = some c)
    (h3 : dualFindPivotRow st c = none) :
    dualSolveLoop (fuel + 1) st steps = .error .noFiniteSolution := by
  simp [dualSolveLoop, h1, h2, h3]

/-- C4: the pivot loop runs iff some candidate-column entry of the objective
row is strictly negative; the entering column is the most-negative entry,
ties broken by the lowest index (Dantzig's rule); both solvers. -/
theorem claim_C4 :
    ∀ (st : PrimalSolver) (dst : DualSolver),
      (primalCanImprove st = true ↔
        ∃ j, j < primalBound st ∧ atIdx (lastRowOf st.matrix) j < 0) ∧
      (dualCanImprove dst = true ↔
        ∃ j, j < dualBound dst ∧ atIdx (lastRowOf dst.matrix) j < 0) ∧
      (primalCanImprove st = true ↔ (primalFindPivotCol st).isSome) ∧
      (dualCanImprove dst = true ↔ (dualFindPivotCol dst).isSome) ∧
      (∀ c, primalFindPivotCol st = some c →
        c < primalBound st ∧ atIdx (lastRowOf st.matrix) c < 0 ∧
        (∀ j, j < primalBound st →
          atIdx (lastRowOf st.matrix) c ≤ atIdx (lastRowOf st.matrix) j) ∧
        (∀ j, j < c → atIdx (lastRowOf st.matrix) c < atIdx (lastRowOf st.matrix) j)) ∧
      (∀ c, dualFindPivotCol dst = some c →
        c < dualBound dst ∧ atIdx (lastRowOf dst.matrix) c < 0 ∧
        (∀ j, j < dualBound dst →
          atIdx (lastRowOf dst.matrix) c ≤ atIdx (lastRowOf dst.matrix) j) ∧
        (∀ j, j < c → atIdx (lastRowOf dst.matrix) c < atIdx (lastRowOf dst.matrix) j)) ∧
      (∀ fuel steps, primalCanImprove st = false →
        primalSolveLoop (fuel + 1) st steps = .ok (st, steps)) ∧
      (∀ fuel steps, dualCanImprove dst = false →
        dualSolveLoop (fuel + 1) dst steps = .ok (dst, steps)) := by
  intro st dst
  refine ⟨canImproveRow_iff _ _, canImproveRow_iff _ _,
    canImproveRow_iff_isSome _ _, canImproveRow_iff_isSome _ _, ?_, ?_, ?_, ?_⟩
  · intro c hc
    obtain ⟨h1, _, h3, h4, h5⟩ := findPivotColRow_some _ _ _ hc
    exact ⟨h1, h3, h4, h5⟩
  · intro c hc
    obtain ⟨h1, _, h3, h4, h5⟩ := findPivotColRow_some _ _ _ hc
    exact ⟨h1, h3, h4, h5⟩
  · intro fuel steps h
    exact primalSolveLoop_stop fuel st steps h
  · intro fuel steps h
    exact dualSolveLoop_stop fuel dst steps h

/-- Witness for C4 at the demo solver: its entering column is column 1
(the `-5` of `5x2`), obtained by discharging the theorem's hypotheses at a
concrete input. -/
theorem claim_C4_witness :
    1 < primalBound demoP ∧ atIdx (lastRowOf demoP.matrix) 1 < 0 := by
  have h := ((claim_C4 demoP demoD).2.2.2.2.1 1 (by decide))
  exact ⟨h.1, h.2.1⟩

/-! ### Leaving-row rule on solver states -/

theorem primalFindPivotRow_spec (st : PrimalSolver) (c : Nat) (hwf : primalWF st) :
    (primalFindPivotRow st c = none ↔
      ∀ i, i < st.constraints.length → entry st.matrix i c ≤ 0) ∧
    (∀ r, primalFindPivotRow st c = some r →
      r < st.constraints.length ∧ 0 < entry st.matrix r c ∧
      (∀ i, i < st.constraints.length → 0 < entry st.matrix i c →
        entry st.matrix r (primalRhsIdx st) / entry st.matrix r c ≤
          entry st.matrix i (primalRhsIdx st) / entry st.matrix i c) ∧
      (∀ i, i < r → 0 < entry st.matrix i c →
        entry st.matrix r (primalRhsIdx st) / entry st.matrix r c <
          entry st.matrix i (primalRhsIdx st) / entry st.matrix i c)) := by
  obtain ⟨hlen, hw⟩ := hwf
  have hdl : st.matrix.dropLast.length = st.constraints.length := by
    simp [hlen]
  have hrowi : ∀ i, ∀ hi : i < st.matrix.dropLast.length,
      st.matrix.dropLast.get ⟨i, hi⟩ = getRow st.matrix i := by
    intro i hi
    exact dropLast_get_eq_getRow st.matrix i hi
  have hcand_iff : ∀ i, i < st.constraints.length →
      (rowCand (fun row => row.get? (primalRhsIdx st)) c (getRow st.matrix i) ↔
        0 < entry st.matrix i c) := by
    intro i him
    constructor
    · intro hc
      exact hc.1
    · intro hpos
      refine ⟨hpos, ?_⟩
      have hilen : i < st.matrix.length := by omega
      have hrl : (getRow st.matrix i).length = primalBound st + 2 :=
        getRow_len st.matrix _ i hw hilen
      have hlt : primalRhsIdx st < (getRow st.matrix i).length := by
        rw [hrl, primalRhsIdx, primalBound]
        omega
      show ((getRow st.matrix i).get? (primalRhsIdx st)).isSome
      rw [get?_of_lt _ _ hlt]
      rfl
  have hrat_eq : ∀ i, rowRatV (fun row => row.get? (primalRhsIdx st)) c (getRow st.matrix i) =
      entry st.matrix i (primalRhsIdx st) / entry st.matrix i c := fun i => rfl
  constructor
  · constructor
    · intro hnone i him
      by_contra hpos
      push_neg at hpos
      have hcand := (hcand_iff i him).mpr hpos
      have hi : i < st.matrix.dropLast.length := by omega
      obtain ⟨k, hk, heq, _⟩ := pivotRowAux_min (fun row => row.get? (primalRhsIdx st)) c
        st.matrix.dropLast 0 none
        ⟨st.matrix.dropLast.get ⟨i, hi⟩, st.matrix.dropLast.get_mem _ _,
          by rw [hrowi i hi]; exact hcand, fun b hb => Option.noConfusion hb⟩
      rw [primalFindPivotRow] at hnone
      rw [hnone] at heq
      exact Option.noConfusion heq
    · intro hall
      apply pivotRowAux_none
      intro row hrow hcand
      obtain ⟨fi, hfi⟩ := List.mem_iff_get.mp hrow
      have him : fi.1 < st.constraints.length := by
        have := fi.2
        omega
      rw [← hfi, hrowi fi.1 fi.2] at hcand
      exact absurd ((hcand_iff fi.1 him).mp hcand) (not_lt.mpr (hall fi.1 him))
  · intro r hr
    rw [primalFindPivotRow] at hr
    have hnotall : ¬ ∀ row ∈ st.matrix.dropLast,
        ¬ rowCand (fun row => row.get? (primalRhsIdx st)) c row := by
      intro hall
      rw [pivotRowAux_none _ _ _ _ hall] at hr
      exact Option.noConfusion hr
    push_neg at hnotall
    obtain ⟨row0, hrow0, hcand0⟩ := hnotall
    obtain ⟨k, hk, heq, hck, _, hle, hstrict⟩ :=
      pivotRowAux_min (fun row => row.get? (primalRhsIdx st)) c st.matrix.dropLast 0 none
        ⟨row0, hrow0, hcand0, fun b hb => Option.noConfusion hb⟩
    rw [hr] at heq
    have hrk : r = k := by
      have := Option.some.inj heq
      omega
    subst hrk
    have hrm : r < st.constraints.length := by omega
    have hgetr := hrowi r hk
    rw [hgetr] at hck
    refine ⟨hrm, (hcand_iff r hrm).mp hck, ?_, ?_⟩
    · intro i him hpos
      have hi : i < st.matrix.dropLast.length := by omega
      have hci : rowCand (fun row => row.get? (primalRhsIdx st)) c
          (st.matrix.dropLast.get ⟨i, hi⟩) := by
        rw [hrowi i hi]
        exact (hcand_iff i him).mpr hpos
      have hres := hle i hi hci
      rw [hgetr, hrowi i hi, hrat_eq, hrat_eq] at hres
      exact hres
    · intro i hir hpos
      have him : i < st.constraints.length := by omega
      have hi : i < st.matrix.dropLast.length := by omega
      have hci : rowCand (fun row => row.get? (primalRhsIdx st)) c
          (st.matrix.dropLast.get ⟨i, hi⟩) := by
        rw [hrowi i hi]
        exact (hcand_iff i him).mpr hpos
      have hres := hstrict i hi hir hci
      rw [hgetr, hrowi i hi, hrat_eq, hrat_eq] at hres
      exact hres

theorem dualFindPivotRow_spec (st : DualSolver) (c : Nat) (hwf : dualWF st) :
    (dualFindPivotRow st c = none ↔
      ∀ i, i < st.originalVars.length → entry st.matrix i c ≤ 0) ∧
    (∀ r, dualFindPivotRow st c = some r →
      r < st.originalVars.length ∧ 0 < entry st.matrix r c ∧
      (∀ i, i < st.originalVars.length → 0 < entry st.matrix i c →
        entry st.matrix r (dualRhsIdx st) / entry st.matrix r c ≤
          entry st.matrix i (dualRhsIdx st) / entry st.matrix i c) ∧
      (∀ i, i < r → 0 < entry st.matrix i c →
        entry st.matrix r (dualRhsIdx st) / entry st.matrix r c <
          entry st.matrix i (dualRhsIdx st) / entry st.matrix i c)) := by
  obtain ⟨hlen, hw⟩ := hwf
  have hdl : st.matrix.dropLast.length = st.originalVars.length := by
    simp [hlen]
  have hrowi : ∀ i, ∀ hi : i < st.matrix.dropLast.length,
      st.matrix.dropLast.get ⟨i, hi⟩ = getRow st.matrix i := by
    intro i hi
    exact dropLast_get_eq_getRow st.matrix i hi
  have hgetRhs_eq : ∀ i, i < st.originalVars.length →
      (getRow st.matrix i).get? ((getRow st.matrix i).length - 1) =
        (getRow st.matrix i).get? (dualRhsIdx st) := by
    intro i him
    have hilen : i < st.matrix.length := by omega
    have hrl : (getRow st.matrix i).length = dualBound st + 2 :=
      getRow_len st.matrix _ i hw hilen
    rw [hrl]
    rfl
  have hcand_iff : ∀ i, i < st.originalVars.length →
      (rowCand (fun row => row.get? (row.length - 1)) c (getRow st.matrix i) ↔
        0 < entry st.matrix i c) := by
    intro i him
    constructor
    · intro hc
      exact hc.1
    · intro hpos
      refine ⟨hpos, ?_⟩
      have hilen : i < st.matrix.length := by omega
      have hrl : (getRow st.matrix i).length = dualBound st + 2 :=
        getRow_len st.matrix _ i hw hilen
      have hlt : dualRhsIdx st < (getRow st.matrix i).length := by
        rw [hrl, dualRhsIdx, dualBound]
        omega
      show ((getRow st.matrix i).get? ((getRow st.matrix i).length - 1)).isSome
      rw [hrl]
      have : dualBound st + 2 - 1 = dualRhsIdx st := by
        rw [dualRhsIdx, dualBound]
        omega
      rw [this, get?_of_lt _ _ hlt]
      rfl
  have hrat_eq : ∀ i, i < st.originalVars.length →
      rowRatV (fun row => row.get? (row.length - 1)) c (getRow st.matrix i) =
        entry st.matrix i (dualRhsIdx st) / entry st.matrix i c := by
    intro i him
    show ((getRow st.matrix i).get? ((getRow st.matrix i).length - 1)).getD 0 /
        atIdx (getRow st.matrix i) c = _
    rw [hgetRhs_eq i him]
    rfl
  constructor
  · constructor
    · intro hnone i him
      by_contra hpos
      push_neg at hpos
      have hcand := (hcand_iff i him).mpr hpos
      have hi : i < st.matrix.dropLast.length := by omega
      obtain ⟨k, hk, heq, _⟩ := pivotRowAux_min (fun row => row.get? (row.length - 1)) c
        st.matrix.dropLast 0 none
        ⟨st.matrix.dropLast.get ⟨i, hi⟩, st.matrix.dropLast.get_mem _ _,
          by rw [hrowi i hi]; exact hcand, fun b hb => Option.noConfusion hb⟩
      rw [dualFindPivotRow] at hnone
      rw [hnone] at heq
      exact Option.noConfusion heq
    · intro hall
      apply pivotRowAux_none
      intro row hrow hcand
      obtain ⟨fi, hfi⟩ := List.mem_iff_get.mp hrow
      have him : fi.1 < st.originalVars.length := by
        have := fi.2
        omega
      rw [← hfi, hrowi fi.1 fi.2] at hcand
      exact absurd ((hcand_iff fi.1 him).mp hcand) (not_lt.mpr (hall fi.1 him))
  · intro r hr
    rw [dualFindPivotRow] at hr
    have hnotall : ¬ ∀ row ∈ st.matrix.dropLast,
        ¬ rowCand (fun row => row.get? (row.length - 1)) c row := by
      intro hall
      rw [pivotRowAux_none _ _ _ _ hall] at hr
      exact Option.noConfusion hr
    push_neg at hnotall
    obtain ⟨row0, hrow0, hcand0⟩ := hnotall
    obtain ⟨k, hk, heq, hck, _, hle, hstrict⟩ :=
      pivotRowAux_min (fun row => row.get? (row.length - 1)) c st.matrix.dropLast 0 none
        ⟨row0, hrow0, hcand0, fun b hb => Option.noConfusion hb⟩
    rw [hr] at heq
    have hrk : r = k := by
      have := Option.some.inj heq
      omega
    subst hrk
    have hrm : r < st.originalVars.length := by omega
    have hgetr := hrowi r hk
    rw [hgetr] at hck
    refine ⟨hrm, (hcand_iff r hrm).mp hck, ?_, ?_⟩
    · intro i him hpos
      have hi : i < st.matrix.dropLast.length := by omega
      have hci : rowCand (fun row => row.get? (row.length - 1)) c
          (st.matrix.dropLast.get ⟨i, hi⟩) := by
        rw [hrowi i hi]
        exact (hcand_iff i him).mpr hpos
      have hres := hle i hi hci
      rw [hgetr, hrowi i hi, hrat_eq r hrm, hrat_eq i him] at hres
      exact hres
    · intro i hir hpos
      have him : i < st.originalVars.length := by omega
      have hi : i < st.matrix.dropLast.length := by omega
      have hci : rowCand (fun row => row.get? (row.length - 1)) c
          (st.matrix.dropLast.get ⟨i, hi⟩) := by
        rw [hrowi i hi]
        exact (hcand_iff i him).mpr hpos
      have hres := hstrict i hi hir hci
      rw [hgetr, hrowi i hi, hrat_eq r hrm, hrat_eq i him] at hres
      exact hres

/-- C3: at every pivot the leaving row is chosen by the minimum ratio test
(`RHS / entry` over rows with strictly positive entry in the entering column,
ties broken by the lowest row index), and when no such row exists `solve()`
fails with the "No finite solution" (Unbounded) error — for both solvers. -/
theorem claim_C3 :
    ∀ (st : PrimalSolver) (dst : DualSolver) (c : Nat), primalWF st → dualWF dst →
      ((primalFindPivotRow st c = none ↔
        ∀ i, i < st.constraints.length → entry st.matrix i c ≤ 0) ∧
       (∀ r, primalFindPivotRow st c = some r →
        r < st.constraints.length ∧ 0 < entry st.matrix r c ∧
        (∀ i, i < st.constraints.length → 0 < entry st.matrix i c →
          entry st.matrix r (primalRhsIdx st) / entry st.matrix r c ≤
            entry st.matrix i (primalRhsIdx st) / entry st.matrix i c) ∧
        (∀ i, i < r → 0 < entry st.matrix i c →
          entry st.matrix r (primalRhsIdx st) / entry st.matrix r c <
            entry st.matrix i (primalRhsIdx st) / entry st.matrix i c))) ∧
      ((dualFindPivotRow dst c = none ↔
        ∀ i, i < dst.originalVars.length → entry dst.matrix i c ≤ 0) ∧
       (∀ r, dualFindPivotRow dst c = some r →
        r < dst.originalVars.length ∧ 0 < entry dst.matrix r c ∧
        (∀ i, i < dst.originalVars.length → 0 < entry dst.matrix i c →
          entry dst.matrix r (dualRhsIdx dst) / entry dst.matrix r c ≤
            entry dst.matrix i (dualRhsIdx dst) / entry dst.matrix i c) ∧
        (∀ i, i < r → 0 < entry dst.matrix i c →
          entry dst.matrix r (dualRhsIdx dst) / entry dst.matrix r c <
            entry dst.matrix i (dualRhsIdx dst) / entry dst.matrix i c))) ∧
      (∀ fuel steps, primalCanImprove st = true → primalFindPivotCol st = some c →
        primalFindPivotRow st c = none →
        primalSolveLoop (fuel + 1) st steps = .error .noFiniteSolution) ∧
      (∀ fuel steps, dualCanImprove dst = true → dualFindPivotCol dst = some c →
        dualFindPivotRow dst c = none →
        dualSolveLoop (fuel + 1) dst steps = .error .noFiniteSolution) := by
  intro st dst c hwf hdwf
  exact ⟨primalFindPivotRow_spec st c hwf, dualFindPivotRow_spec dst c hdwf,
    fun fuel steps h1 h2 h3 => primalSolveLoop_unbounded fuel st steps c h1 h2 h3,
    fun fuel steps h1 h2 h3 => dualSolveLoop_unbounded fuel dst steps c h1 h2 h3⟩

/-- Witness for C3 at the demo solver: in entering column 1 the ratio test
selects row 1 (`12/2 = 6`, beating `18/2 = 9`), whose pivot entry is
strictly positive. -/
theorem claim_C3_witness :
    1 < demoP.constraints.length ∧ 0 < entry demoP.matrix 1 1 := by
  have h := ((claim_C3 demoP demoD 1 (by decide) (by decide)).1.2 1 (by decide))
  exact ⟨h.1, h.2.1⟩

/-- C10 (implicit pivot safety): whenever the loop body runs, the chosen pivot
column exists, is in bounds and has a strictly negative objective entry, and
any row the ratio test returns is a constraint row with strictly positive —
hence nonzero — pivot entry, so the pivot normalization never divides by zero
and all accesses are in bounds. -/
theorem claim_C10 :
    ∀ (st : PrimalSolver) (dst : DualSolver),
      (primalWF st → primalCanImprove st = true →
        ∃ c, primalFindPivotCol st = some c ∧ c < primalBound st ∧
          atIdx (lastRowOf st.matrix) c < 0 ∧ c < primalBound st + 2 ∧
          ∀ r, primalFindPivotRow st c = some r →
            r < st.constraints.length ∧ r < st.matrix.length ∧
            0 < entry st.matrix r c ∧ entry st.matrix r c ≠ 0) ∧
      (dualWF dst → dualCanImprove dst = true →
        ∃ c, dualFindPivotCol dst = some c ∧ c < dualBound dst ∧
          atIdx (lastRowOf dst.matrix) c < 0 ∧ c < dualBound dst + 2 ∧
          ∀ r, dualFindPivotRow dst c = some r →
            r < dst.originalVars.length ∧ r < dst.matrix.length ∧
            0 < entry dst.matrix r c ∧ entry dst.matrix r c ≠ 0) := by
  intro st dst
  constructor
  · intro hwf himp
    obtain ⟨c, hc⟩ := Option.isSome_iff_exists.mp
      ((canImproveRow_iff_isSome (lastRowOf st.matrix) (primalBound st)).mp himp)
    obtain ⟨hcb, _, hneg, _, _⟩ := findPivotColRow_some _ _ _ hc
    refine ⟨c, hc, hcb, hneg, by omega, ?_⟩
    intro r hr
    have hlen := hwf.1
    obtain ⟨hrm, hpos, _, _⟩ := (primalFindPivotRow_spec st c hwf).2 r hr
    exact ⟨hrm, by omega, hpos, ne_of_gt hpos⟩
  · intro hwf himp
    obtain ⟨c, hc⟩ := Option.isSome_iff_exists.mp
      ((canImproveRow_iff_isSome (lastRowOf dst.matrix) (dualBound dst)).mp himp)
    obtain ⟨hcb, _, hneg, _, _⟩ := findPivotColRow_some _ _ _ hc
    refine ⟨c, hc, hcb, hneg, by omega, ?_⟩
    intro r hr
    have hlen := hwf.1
    obtain ⟨hrm, hpos, _, _⟩ := (dualFindPivotRow_spec dst c hwf).2 r hr
    exact ⟨hrm, by omega, hpos, ne_of_gt hpos⟩

/-- Witness for C10 at the demo solver. -/
theorem claim_C10_witness :
    ∃ c, primalFindPivotCol demoP = some c ∧ c < primalBound demoP ∧
      atIdx (lastRowOf demoP.matrix) c < 0 ∧ c < primalBound demoP + 2 ∧
      ∀ r, primalFindPivotRow demoP c = some r →
        r < demoP.constraints.length ∧ r < demoP.matrix.length ∧
        0 < entry demoP.matrix r c ∧ entry demoP.matrix r c ≠ 0 :=
  (claim_C10 demoP demoD).1 (by decide) (by decide)

/-! ### Gauss-Jordan pivot postcondition -/

theorem getRow_of_lt (M : List (List ℚ)) (i : Nat) (hi : i < M.length) :
    M.get? i = some (getRow M i) := by
  rcases hq : M.get? i with _ | row
  · rw [List.get?_eq_getElem?, List.getElem?_eq_none_iff] at hq
    omega
  · rw [getRow, hq]
    rfl

theorem atIdx_map_div (row : List ℚ) (p : ℚ) (j : Nat) :
    atIdx (row.map (fun x => x / p)) j = atIdx row j / p := by
  rcases hq : row.get? j with _ | v
  · have hlen : row.length ≤ j := by
      rw [List.get?_eq_getElem?, List.getElem?_eq_none_iff] at hq
      exact hq
    have hlen2 : (row.map (fun x => x / p)).length ≤ j := by simpa using hlen
    rw [atIdx_of_len_le _ _ hlen, atIdx_of_len_le _ _ hlen2, zero_div]
  · have hq2 : (row.map (fun x => x / p)).get? j = some (v / p) := by
      rw [List.get?_eq_getElem?] at hq ⊢
      rw [List.getElem?_map, hq]
      rfl
    rw [atIdx_of_get? _ _ _ hq, atIdx_of_get? _ _ _ hq2]

theorem pivotOp_get? (M : List (List ℚ)) (r c i : Nat) :
    (pivotOp M r c).get? i = (M.get? i).map (fun row =>
      if i = r then (getRow M r).map (fun x => x / entry M r c)
      else mapWithIdx (fun j x =>
        x - atIdx row c * atIdx ((getRow M r).map (fun x => x / entry M r c)) j) 0 row) := by
  simp only [pivotOp]
  rw [mapWithIdx_get?]
  simp only [Nat.zero_add]
  rfl

theorem pivotOp_getRow_pivot (M : List (List ℚ)) (r c : Nat) (hr : r < M.length) :
    getRow (pivotOp M r c) r = (getRow M r).map (fun x => x / entry M r c) := by
  rw [getRow, pivotOp_get?, getRow_of_lt M r hr]
  simp

theorem pivotOp_entry_pivotRow (M : List (List ℚ)) (r c j : Nat) (hr : r < M.length) :
    entry (pivotOp M r c) r j = entry M r j / entry M r c := by
  show atIdx (getRow (pivotOp M r c) r) j = _
  rw [pivotOp_getRow_pivot M r c hr, atIdx_map_div]
  rfl

theorem pivotOp_getRow_other (M : List (List ℚ)) (r c i : Nat) (hi : i < M.length)
    (hne : i ≠ r) :
    getRow (pivotOp M r c) i = mapWithIdx (fun j x =>
      x - atIdx (getRow M i) c *
        atIdx ((getRow M r).map (fun x => x / entry M r c)) j) 0 (getRow M i) := by
  rw [getRow, pivotOp_get?, getRow_of_lt M i hi]
  simp [hne]

theorem pivotOp_entry_other (M : List (List ℚ)) (r c i j : Nat) (hi : i < M.length)
    (hne : i ≠ r) (hj : j < (getRow M i).length) :
    entry (pivotOp M r c) i j = entry M i j - entry M i c * (entry M r j / entry M r c) := by
  show atIdx (getRow (pivotOp M r c) i) j = _
  rw [pivotOp_getRow_other M r c i hi hne]
  have hq : (getRow M i).get? j = some (atIdx (getRow M i) j) := get?_of_lt _ _ hj
  have hm : (mapWithIdx (fun j x =>
      x - atIdx (getRow M i) c *
        atIdx ((getRow M r).map (fun x => x / entry M r c)) j) 0 (getRow M i)).get? j =
      some (atIdx (getRow M i) j - atIdx (getRow M i) c *
        atIdx ((getRow M r).map (fun x => x / entry M r c)) j) := by
    rw [mapWithIdx_get?, hq]
    simp
  rw [atIdx_of_get? _ _ _ hm, atIdx_map_div]
  rfl

/-- C6: after one pivot at a nonzero pivot entry, the pivot row is the old
pivot row divided by the pivot value, every other row is its old value minus
its old pivot-column entry times the normalized pivot row, and the pivot
column holds exactly `1` at the pivot row and `0` elsewhere — well within the
`1e-8` tolerance. -/
theorem claim_C6 :
    ∀ (M : List (List ℚ)) (w r c : Nat), matrixWF M w → r < M.length → c < w →
      entry M r c ≠ 0 →
      getRow (pivotOp M r c) r = (getRow M r).map (fun x => x / entry M r c) ∧
      (∀ i j, i < M.length → i ≠ r → j < w →
        entry (pivotOp M r c) i j =
          entry M i j - entry M i c * (entry M r j / entry M r c)) ∧
      |entry (pivotOp M r c) r c - 1| < tolQ ∧
      (∀ i, i < M.length → i ≠ r → |entry (pivotOp M r c) i c| < tolQ) := by
  intro M w r c hwf hr hc hnz
  refine ⟨pivotOp_getRow_pivot M r c hr, ?_, ?_, ?_⟩
  · intro i j hi hne hj
    exact pivotOp_entry_other M r c i j hi hne (by rw [getRow_len M w i hwf hi]; exact hj)
  · rw [pivotOp_entry_pivotRow M r c c hr, div_self hnz]
    norm_num [tolQ]
  · intro i hi hne
    rw [pivotOp_entry_other M r c i c hi hne (by rw [getRow_len M w i hwf hi]; exact hc)]
    rw [div_self hnz, mul_one, sub_self]
    norm_num [tolQ]

/-- Witness for C6 on a concrete 2×2 matrix with pivot entry 2. -/
theorem claim_C6_witness :
    |entry (pivotOp [[2, 4], [1, 3]] 0 0) 0 0 - 1| < tolQ ∧
    |entry (pivotOp [[2, 4], [1, 3]] 0 0) 1 0| < tolQ := by
  have h := claim_C6 [[2, 4], [1, 3]] 2 0 0 (by decide) (by decide) (by decide) (by decide)
  exact ⟨h.2.2.1, h.2.2.2 1 (by decide) (by decide)⟩

/-! ### Step-sequence invariant -/

theorem cloneMatrix_id (M : List (List ℚ)) : cloneMatrix M = M := by
  simp [cloneMatrix]

/-- "Number of pivots performed": the same recursion as the solve loop,
counting iterations instead of recording steps. -/
def primalPivotCount (fuel : Nat) (st : PrimalSolver) : Except SolverError Nat :=
  match fuel with
  | 0 => .error .outOfFuel
  | fuel + 1 =>
    if primalCanImprove st then
      match primalFindPivotCol st with
      | none => .error .noFiniteSolution
      | some c =>
        match primalFindPivotRow st c with
        | none => .error .noFiniteSolution
        | some r =>
          match primalPivotCount fuel { st with matrix := pivotOp st.matrix r c } with
          | .error e => .error e
          | .ok k => .ok (k + 1)
    else .ok 0

def dualPivotCount (fuel : Nat) (st : DualSolver) : Except SolverError Nat :=
  match fuel with
  | 0 => .error .outOfFuel
  | fuel + 1 =>
    if dualCanImprove st then
      match dualFindPivotCol st with
      | none => .error .noFiniteSolution
      | some c =>
        match dualFindPivotRow st c with
        | none => .error .noFiniteSolution
        | some r =>
          match dualPivotCount fuel { st with matrix := pivotOp st.matrix r c } with
          | .error e => .error e
          | .ok k => .ok (k + 1)
    else .ok 0

/-- The recorded steps after the initial one form a chain: each has a
`pivotInfo` and its table is the pivot of the previous table. -/
def stepsChain (M : List (List ℚ)) : List Step → Prop
  | [] => True
  | s :: rest =>
    (∃ pin, s.pivotInfo = some pin ∧ s.table = pivotOp M pin.row pin.col) ∧
    stepsChain s.table rest

theorem primalSolveLoop_shape (fuel : Nat) (st : PrimalSolver) (steps : List Step)
    (st2 : PrimalSolver) (out : List Step)
    (h : primalSolveLoop fuel st steps = .ok (st2, out)) :
    ∃ more, out = steps ++ more ∧ stepsChain st.matrix more ∧
      primalPivotCount fuel st = .ok more.length := by
  induction fuel generalizing st steps with
  | zero => exact absurd h (by simp [primalSolveLoop])
  | succ fuel ih =>
    by_cases himp : primalCanImprove st
    · rcases hc : primalFindPivotCol st with _ | c
      · rw [primalSolveLoop] at h
        simp only [himp, if_true, hc] at h
        exact Except.noConfusion h
      · rcases hrow : primalFindPivotRow st c with _ | r
        · rw [primalSolveLoop] at h
          simp only [himp, if_true, hc, hrow] at h
          exact Except.noConfusion h
        · rw [primalSolveLoop] at h
          simp only [himp, if_true, hc, hrow] at h
          obtain ⟨more2, hout, hchain, hcount⟩ := ih _ _ h
          refine ⟨⟨cloneMatrix (pivotOp st.matrix r c), some (primalPivotInfo st r c)⟩ :: more2,
            ?_, ?_, ?_⟩
          · rw [hout]
            simp
          · refine ⟨⟨primalPivotInfo st r c, rfl, ?_⟩, ?_⟩
            · exact cloneMatrix_id _
            · show stepsChain (cloneMatrix (pivotOp st.matrix r c)) more2
              rw [cloneMatrix_id]
              exact hchain
          · rw [primalPivotCount]
            simp only [himp, if_true, hc, hrow, hcount]
            rfl
    · have hstop := primalSolveLoop_stop fuel st steps (Bool.of_not_eq_true himp)
      rw [hstop] at h
      have hpair : ((st, steps) : PrimalSolver × List Step) = (st2, out) := by
        injection h
      have hst : steps = out := congrArg Prod.snd hpair
      refine ⟨[], by rw [← hst]; simp, trivial, ?_⟩
      rw [primalPivotCount]
      simp [himp]

theorem dualSolveLoop_shape (fuel : Nat) (st : DualSolver) (steps : List Step)
    (st2 : DualSolver) (out : List Step)
    (h : dualSolveLoop fuel st steps = .ok (st2, out)) :
    ∃ more, out = steps ++ more ∧ stepsChain st.matrix more ∧
      dualPivotCount fuel st = .ok more.length := by
  induction fuel generalizing st steps with
  | zero => exact absurd h (by simp [dualSolveLoop])
  | succ fuel ih =>
    by_cases himp : dualCanImprove st
    · rcases hc : dualFindPivotCol st with _ | c
      · rw [dualSolveLoop] at h
        simp only [himp, if_true, hc] at h
        exact Except.noConfusion h
      · rcases hrow : dualFindPivotRow st c with _ | r
        · rw [dualSolveLoop] at h
          simp only [himp, if_true, hc, hrow] at h
          exact Except.noConfusion h
        · rw [dualSolveLoop] at h
          simp only [himp, if_true, hc, hrow] at h
          obtain ⟨more2, hout, hchain, hcount⟩ := ih _ _ h
          refine ⟨⟨cloneMatrix (pivotOp st.matrix r c), some (dualPivotInfo st r c)⟩ :: more2,
            ?_, ?_, ?_⟩
          · rw [hout]
            simp
          · refine ⟨⟨dualPivotInfo st r c, rfl, ?_⟩, ?_⟩
            · exact cloneMatrix_id _
            · show stepsChain (cloneMatrix (pivotOp st.matrix r c)) more2
              rw [cloneMatrix_id]
              exact hchain
          · rw [dualPivotCount]
            simp only [himp, if_true, hc, hrow, hcount]
            rfl
    · have hstop := dualSolveLoop_stop fuel st steps (Bool.of_not_eq_true himp)
      rw [hstop] at h
      have hpair : ((st, steps) : DualSolver × List Step) = (st2, out) := by
        injection h
      have hst : steps = out := congrArg Prod.snd hpair
      refine ⟨[], by rw [← hst]; simp, trivial, ?_⟩
      rw [dualPivotCount]
      simp [himp]

theorem stepsChain_get? (M : List (List ℚ)) (l : List Step) (h : stepsChain M l) :
    ∀ i, i < l.length → ∃ s, l.get? i = some s ∧
      ∃ pin, s.pivotInfo = some pin ∧
        ((i = 0 ∧ s.table = pivotOp M pin.row pin.col) ∨
         (1 ≤ i ∧ ∃ sprev, l.get? (i - 1) = some sprev ∧
            s.table = pivotOp sprev.table pin.row pin.col)) := by
  induction l generalizing M with
  | nil =>
    intro i hi
    simp at hi
  | cons s rest ih =>
    intro i hi
    obtain ⟨⟨pin, hpin, htab⟩, hrest⟩ := h
    cases i with
    | zero => exact ⟨s, rfl, pin, hpin, Or.inl ⟨rfl, htab⟩⟩
    | succ j =>
      have hj : j < rest.length := Nat.lt_of_succ_lt_succ hi
      obtain ⟨s2, hg2, pin2, hpin2, hcases⟩ := ih s.table hrest j hj
      refine ⟨s2, hg2, pin2, hpin2, Or.inr ⟨by omega, ?_⟩⟩
      rcases hcases with ⟨hj0, htab2⟩ | ⟨hj1, sprev2, hgp, htab2⟩
      · subst hj0
        exact ⟨s, rfl, htab2⟩
      · refine ⟨sprev2, ?_, htab2⟩
        show (s :: rest).get? j = some sprev2
        rcases j with _ | j2
        · omega
        · exact hgp

/-- C5: on every completed `solve()` the step list has length
`1 + (number of pivots performed)`, its head is the initial tableau with no
`pivotInfo`, and every later step carries a `pivotInfo` recording the pivot
that turns the previous step's table into its own — for both solvers. -/
theorem claim_C5 :
    ∀ (fuel : Nat) (st : PrimalSolver) (dst : DualSolver) (sol : Solution)
      (steps : List Step) (dsol : Solution) (dsteps : List Step),
      (primalSolve fuel st = .ok (sol, steps) →
        (∃ k, primalPivotCount fuel st = .ok k ∧ steps.length = 1 + k) ∧
        steps.get? 0 = some ⟨st.matrix, none⟩ ∧
        (∀ i, 1 ≤ i → i < steps.length →
          ∃ s sprev pin, steps.get? i = some s ∧ steps.get? (i - 1) = some sprev ∧
            s.pivotInfo = some pin ∧ s.table = pivotOp sprev.table pin.row pin.col)) ∧
      (dualSolve fuel dst = .ok (dsol, dsteps) →
        (∃ k, dualPivotCount fuel dst = .ok k ∧ dsteps.length = 1 + k) ∧
        dsteps.get? 0 = some ⟨dst.matrix, none⟩ ∧
        (∀ i, 1 ≤ i → i < dsteps.length →
          ∃ s sprev pin, dsteps.get? i = some s ∧ dsteps.get? (i - 1) = some sprev ∧
            s.pivotInfo = some pin ∧ s.table = pivotOp sprev.table pin.row pin.col)) := by
  intro fuel st dst sol steps dsol dsteps
  constructor
  · intro h
    rw [primalSolve] at h
    rcases hloop : primalSolveLoop fuel st [⟨cloneMatrix st.matrix, none⟩] with e | p
    · rw [hloop] at h
      exact absurd h (by simp)
    · rw [hloop] at h
      obtain ⟨st2, out⟩ := p
      have hsteps : steps = out := by
        have : ((primalExtract st2, out) : Solution × List Step) = (sol, steps) := by
          injection h
        exact (congrArg Prod.snd this).symm
      subst hsteps
      obtain ⟨more, hout, hchain, hcount⟩ := primalSolveLoop_shape fuel st _ st2 _ hloop
      have hform : steps = ⟨st.matrix, none⟩ :: more := by
        rw [hout, cloneMatrix_id]
        rfl
      refine ⟨⟨more.length, hcount, by rw [hform]; simp; omega⟩, by rw [hform]; rfl, ?_⟩
      intro i h1 hi
      rcases i with _ | j
      · omega
      · have hj : j < more.length := by
          rw [hform] at hi
          simpa using Nat.lt_of_succ_lt_succ hi
        obtain ⟨s, hg, pin, hpin, hcases⟩ := stepsChain_get? st.matrix more hchain j hj
        rcases hcases with ⟨hj0, htab⟩ | ⟨hj1, sprev, hgp, htab⟩
        · subst hj0
          refine ⟨s, ⟨st.matrix, none⟩, pin, ?_, ?_, hpin, htab⟩
          · rw [hform]
            exact hg
          · rw [hform]
            rfl
        · refine ⟨s, sprev, pin, ?_, ?_, hpin, htab⟩
          · rw [hform]
            exact hg
          · rw [hform]
            show (⟨st.matrix, none⟩ :: more : List Step).get? j = some sprev
            rcases j with _ | j2
            · omega
            · exact hgp
  · intro h
    rw [dualSolve] at h
    rcases hloop : dualSolveLoop fuel dst [⟨cloneMatrix dst.matrix, none⟩] with e | p
    · rw [hloop] at h
      exact absurd h (by simp)
    · rw [hloop] at h
      obtain ⟨st2, out⟩ := p
      have hsteps : dsteps = out := by
        have : ((dualExtract st2, out) : Solution × List Step) = (dsol, dsteps) := by
          injection h
        exact (congrArg Prod.snd this).symm
      subst hsteps
      obtain ⟨more, hout, hchain, hcount⟩ := dualSolveLoop_shape fuel dst _ st2 _ hloop
      have hform : dsteps = ⟨dst.matrix, none⟩ :: more := by
        rw [hout, cloneMatrix_id]
        rfl
      refine ⟨⟨more.length, hcount, by rw [hform]; simp; omega⟩, by rw [hform]; rfl, ?_⟩
      intro i h1 hi
      rcases i with _ | j
      · omega
      · have hj : j < more.length := by
          rw [hform] at hi
          simpa using Nat.lt_of_succ_lt_succ hi
        obtain ⟨s, hg, pin, hpin, hcases⟩ := stepsChain_get? dst.matrix more hchain j hj
        rcases hcases with ⟨hj0, htab⟩ | ⟨hj1, sprev, hgp, htab⟩
        · subst hj0
          refine ⟨s, ⟨dst.matrix, none⟩, pin, ?_, ?_, hpin, htab⟩
          · rw [hform]
            exact hg
          · rw [hform]
            rfl
        · refine ⟨s, sprev, pin, ?_, ?_, hpin, htab⟩
          · rw [hform]
            exact hg
          · rw [hform]
            show (⟨dst.matrix, none⟩ :: more : List Step).get? j = some sprev
            rcases j with _ | j2
            · omega
            · exact hgp

/-- Witness for C5: a concrete completed solve with step head equal to the
initial tableau and length `1 + pivots`. -/
theorem claim_C5_witness :
    ∃ sol steps, primalSolve 10 demoP = .ok (sol, steps) ∧
      (∃ k, primalPivotCount 10 demoP = .ok k ∧ steps.length = 1 + k) ∧
      steps.get? 0 = some ⟨demoP.matrix, none⟩ := by
  refine ⟨_, _, rfl, ?_⟩
  have h := (claim_C5 10 demoP demoD _ _ ⟨0, [], true⟩ []).1 rfl
  exact ⟨h.1, h.2.1⟩

/-! ### Sign correction of the reported optimal value -/

/-- The RHS entry of the terminal objective row (primal layout). -/
def terminalObjRhsP (st : PrimalSolver) : ℚ :=
  entry st.matrix (st.matrix.length - 1) (primalRhsIdx st)

/-- The RHS entry of the terminal objective row (dual layout). -/
def terminalObjRhsD (st : DualSolver) : ℚ :=
  entry st.matrix (st.matrix.length - 1) (dualRhsIdx st)

/-- C8: the primal `optimalValue` is the terminal objective row's RHS, negated
exactly when the problem was declared `min`; the dual solver's `optimalValue`
is that RHS, never negated — its extraction does not consult `problemType` at
all. -/
theorem claim_C8 :
    ∀ (st : PrimalSolver) (dst : DualSolver),
      (primalExtract st).optimalValue =
        (if st.problemType = .min then -(terminalObjRhsP st) else terminalObjRhsP st) ∧
      (primalExtract { st with problemType := .min }).optimalValue =
        -(primalExtract { st with problemType := .max }).optimalValue ∧
      (dualExtract dst).optimalValue = terminalObjRhsD dst ∧
      dualExtract { dst with problemType := .min } =
        dualExtract { dst with problemType := .max } := by
  intro st dst
  exact ⟨rfl, rfl, rfl, rfl⟩

/-! ### Feasibility flag and the error inventory -/

theorem primalSolveLoop_error (fuel : Nat) (st : PrimalSolver) (steps : List Step)
    (e : SolverError) (h : primalSolveLoop fuel st steps = .error e) :
    e = .noFiniteSolution ∨ e = .outOfFuel := by
  induction fuel generalizing st steps with
  | zero =>
    rw [primalSolveLoop] at h
    exact Or.inr (Except.error.inj h).symm
  | succ fuel ih =>
    by_cases himp : primalCanImprove st
    · rcases hc : primalFindPivotCol st with _ | c
      · rw [primalSolveLoop] at h
        simp only [himp, if_true, hc] at h
        exact Or.inl (Except.error.inj h).symm
      · rcases hrow : primalFindPivotRow st c with _ | r
        · rw [primalSolveLoop] at h
          simp only [himp, if_true, hc, hrow] at h
          exact Or.inl (Except.error.inj h).symm
        · rw [primalSolveLoop] at h
          simp only [himp, if_true, hc, hrow] at h
          exact ih _ _ h
    · rw [primalSolveLoop_stop fuel st steps (Bool.of_not_eq_true himp)] at h
      exact Except.noConfusion h

theorem dualSolveLoop_error (fuel : Nat) (st : DualSolver) (steps : List Step)
    (e : SolverError) (h : dualSolveLoop fuel st steps = .error e) :
    e = .noFiniteSolution ∨ e = .outOfFuel := by
  induction fuel generalizing st steps with
  | zero =>
    rw [dualSolveLoop] at h
    exact Or.inr (Except.error.inj h).symm
  | succ fuel ih =>
    by_cases himp : dualCanImprove st
    · rcases hc : dualFindPivotCol st with _ | c
      · rw [dualSolveLoop] at h
        simp only [himp, if_true, hc] at h
        exact Or.inl (Except.error.inj h).symm
      · rcases hrow : dualFindPivotRow st c with _ | r
        · rw [dualSolveLoop] at h
          simp only [himp, if_true, hc, hrow] at h
          exact Or.inl (Except.error.inj h).symm
        · rw [dualSolveLoop] at h
          simp only [himp, if_true, hc, hrow] at h
          exact ih _ _ h
    · rw [dualSolveLoop_stop fuel st steps (Bool.of_not_eq_true himp)] at h
      exact Except.noConfusion h

/-- C1 counterexample: the constructor's direct-contradiction scan throws the
infeasibility error "No feasible solution" on `x1 <= 1`, `x1 >= 2` — so an
Infeasible-kind failure does exist, distinct from the EmptyInput, Malformed
and Unbounded kinds, refuting the claim as stated. -/
theorem claim_C1_counterexample :
    primalMake "x1" ["x1 <= 1", "x1 >= 2"] .max = .error .noFeasibleSolution ∧
    SolverError.noFeasibleSolution ≠ SolverError.atLeastOneConstraint ∧
    SolverError.noFeasibleSolution ≠ SolverError.objectiveRequired ∧
    SolverError.noFeasibleSolution ≠ SolverError.noFiniteSolution ∧
    (∀ c, SolverError.noFeasibleSolution ≠ SolverError.invalidFormat c ∧
      SolverError.noFeasibleSolution ≠ SolverError.invalidRHS c) := by
  refine ⟨by rfl, by decide, by decide, by decide, fun c =>
    ⟨fun h => SolverError.noConfusion h, fun h => SolverError.noConfusion h⟩⟩

/-- C1 (amended): every **completed** `solve()` (of either solver) returns a
Solution with `feasible = true`, and `solve()` itself can only fail as
Unbounded ("No finite solution") or by not terminating (`outOfFuel` in this
model); the infeasibility error exists only in the primal **constructor**'s
contradiction scan, per `claim_C1_counterexample`. -/
theorem claim_C1_amended :
    ∀ (fuel : Nat) (st : PrimalSolver) (dst : DualSolver),
      (∀ sol steps, primalSolve fuel st = .ok (sol, steps) → sol.feasible = true) ∧
      (∀ sol steps, dualSolve fuel dst = .ok (sol, steps) → sol.feasible = true) ∧
      (∀ e, primalSolve fuel st = .error e → e = .noFiniteSolution ∨ e = .outOfFuel) ∧
      (∀ e, dualSolve fuel dst = .error e → e = .noFiniteSolution ∨ e = .outOfFuel) := by
  intro fuel st dst
  refine ⟨?_, ?_, ?_, ?_⟩
  · intro sol steps h
    rw [primalSolve] at h
    rcases hloop : primalSolveLoop fuel st [⟨cloneMatrix st.matrix, none⟩] with e | p
    · rw [hloop] at h
      exact absurd h (by simp)
    · rw [hloop] at h
      obtain ⟨st2, out⟩ := p
      have h2 : ((primalExtract st2, out) : Solution × List Step) = (sol, steps) := by
        injection h
      have h5 : primalExtract st2 = sol := congrArg Prod.fst h2
      rw [← h5]
      rfl
  · intro sol steps h
    rw [dualSolve] at h
    rcases hloop : dualSolveLoop fuel dst [⟨cloneMatrix dst.matrix, none⟩] with e | p
    · rw [hloop] at h
      exact absurd h (by simp)
    · rw [hloop] at h
      obtain ⟨st2, out⟩ := p
      have h2 : ((dualExtract st2, out) : Solution × List Step) = (sol, steps) := by
        injection h
      have h5 : dualExtract st2 = sol := congrArg Prod.fst h2
      rw [← h5]
      rfl
  · intro e h
    rw [primalSolve] at h
    rcases hloop : primalSolveLoop fuel st [⟨cloneMatrix st.matrix, none⟩] with e2 | p
    · rw [hloop] at h
      have he : e2 = e := Except.error.inj h
      subst he
      exact primalSolveLoop_error fuel st _ e2 hloop
    · rw [hloop] at h
      obtain ⟨st2, out⟩ := p
      exact absurd h (by simp)
  · intro e h
    rw [dualSolve] at h
    rcases hloop : dualSolveLoop fuel dst [⟨cloneMatrix dst.matrix, none⟩] with e2 | p
    · rw [hloop] at h
      have he : e2 = e := Except.error.inj h
      subst he
      exact dualSolveLoop_error fuel dst _ e2 hloop
    · rw [hloop] at h
      obtain ⟨st2, out⟩ := p
      exact absurd h (by simp)

/-- Witness for the amended C1 at a concrete completed solve. -/
theorem claim_C1_witness :
    ∃ sol steps, primalSolve 10 demoP = .ok (sol, steps) ∧ sol.feasible = true := by
  refine ⟨_, _, rfl, ?_⟩
  exact (claim_C1_amended 10 demoP demoD).1 _ _ rfl

/-! ### Malformed-constraint behaviour of the two builders -/

/-- The conditions under which the primal builder rejects a constraint. -/
def primalRowBad (c : List Char) : Prop :=
  (splitRel c).length ≠ 2 ∨
    ∃ l r, splitRel c = [l, r] ∧ jsParseFloat (jsTrim r) = none

/-- The (weaker) condition under which the dual builder rejects a
constraint: only the two-part split is checked, never the RHS. -/
def dualRowBad (c : List Char) : Prop := (splitRel c).length ≠ 2

theorem primalConstraintRow_error_iff (vars : List (List Char)) (n m i : Nat)
    (c : List Char) :
    (∃ e, primalConstraintRow vars n m i c = .error e) ↔ primalRowBad c := by
  rw [primalRowBad]
  rcases hsp : splitRel c with _ | ⟨l, rest⟩
  · constructor
    · intro _
      left
      simp
    · intro _
      exact ⟨.invalidFormat c, by simp [primalConstraintRow, hsp]⟩
  · rcases rest with _ | ⟨r, rest2⟩
    · constructor
      · intro _
        left
        simp
      · intro _
        exact ⟨.invalidFormat c, by simp [primalConstraintRow, hsp]⟩
    · rcases rest2 with _ | ⟨x, rest3⟩
      · -- exactly two parts
        rcases hpf : jsParseFloat (jsTrim r) with _ | q
        · constructor
          · intro _
            right
            exact ⟨l, r, rfl, hpf⟩
          · intro _
            exact ⟨.invalidRHS c, by simp [primalConstraintRow, hsp, hpf]⟩
        · constructor
          · rintro ⟨e, he⟩
            simp only [primalConstraintRow, hsp, hpf] at he
            split at he
            · exact Except.noConfusion he
            · split at he
              · exact Except.noConfusion he
              · exact Except.noConfusion he
          · rintro (hbad | ⟨l2, r2, heq, hnone⟩)
            · simp at hbad
            · injection heq with h1 hrest
              injection hrest with h2 hnil
              subst h1
              subst h2
              rw [hpf] at hnone
              exact Option.noConfusion hnone
      · constructor
        · intro _
          left
          simp
        · intro _
          exact ⟨.invalidFormat c, by simp [primalConstraintRow, hsp]⟩

theorem dualParts_error_iff (c : List Char) :
    (∃ e, dualParts c = .error e) ↔ dualRowBad c := by
  rw [dualRowBad]
  rcases hsp : splitRel c with _ | ⟨l, rest⟩
  · exact ⟨fun _ => by simp, fun _ => ⟨.invalidFormat c, by simp [dualParts, hsp]⟩⟩
  · rcases rest with _ | ⟨r, rest2⟩
    · exact ⟨fun _ => by simp, fun _ => ⟨.invalidFormat c, by simp [dualParts, hsp]⟩⟩
    · rcases rest2 with _ | ⟨x, rest3⟩
      · constructor
        · rintro ⟨e, he⟩
          simp only [dualParts, hsp] at he
          exact Except.noConfusion he
        · intro hbad
          simp at hbad
      · exact ⟨fun _ => by simp, fun _ => ⟨.invalidFormat c, by simp [dualParts, hsp]⟩⟩

theorem primalRowsGo_error_iff (vars : List (List Char)) (n m : Nat)
    (cons : List (List Char)) :
    ∀ i, (∃ e, primalRowsGo vars n m i cons = .error e) ↔ ∃ c ∈ cons, primalRowBad c := by
  induction cons with
  | nil =>
    intro i
    constructor
    · rintro ⟨e, he⟩
      exact absurd he (by rw [primalRowsGo]; simp)
    · rintro ⟨c, hc, _⟩
      simp at hc
  | cons c rest ih =>
    intro i
    constructor
    · rintro ⟨e, he⟩
      rw [primalRowsGo] at he
      rcases hrc : primalConstraintRow vars n m i c with e2 | row
      · exact ⟨c, by simp, (primalConstraintRow_error_iff vars n m i c).mp ⟨e2, hrc⟩⟩
      · rw [hrc] at he
        rcases hrest : primalRowsGo vars n m (i + 1) rest with e3 | rows
        · obtain ⟨c2, hc2, hbad⟩ := (ih (i + 1)).mp ⟨e3, hrest⟩
          exact ⟨c2, by simp [hc2], hbad⟩
        · rw [hrest] at he
          exact absurd he (by simp)
    · rintro ⟨c2, hc2, hbad⟩
      rcases List.mem_cons.mp hc2 with rfl | hc2r
      · obtain ⟨e, he⟩ := (primalConstraintRow_error_iff vars n m i c2).mpr hbad
        exact ⟨e, by simp [primalRowsGo, he]⟩
      · rcases hrc : primalConstraintRow vars n m i c with e2 | row
        · exact ⟨e2, by simp [primalRowsGo, hrc]⟩
        · obtain ⟨e3, he3⟩ := (ih (i + 1)).mpr ⟨c2, hc2r, hbad⟩
          exact ⟨e3, by simp [primalRowsGo, hrc, he3]⟩

theorem initializeMatrixE_error_iff (vars cons : List (List Char))
    (objective : List Char) (pt : ProbType) :
    (∃ e, initializeMatrixE vars cons objective pt = .error e) ↔
      ∃ c ∈ cons, primalRowBad c := by
  rw [← primalRowsGo_error_iff vars vars.length cons.length cons 0]
  constructor
  · rintro ⟨e, he⟩
    rw [initializeMatrixE] at he
    rcases hgo : primalRowsGo vars vars.length cons.length 0 cons with e2 | rows
    · exact ⟨e2, rfl⟩
    · rw [hgo] at he
      exact absurd he (by simp)
  · rintro ⟨e, he⟩
    exact ⟨e, by simp [initializeMatrixE, he]⟩

theorem mapE_error_iff {α β : Type} (f : α → Except SolverError β) (l : List α) :
    (∃ e, mapE f l = .error e) ↔ ∃ a ∈ l, ∃ e, f a = .error e := by
  induction l with
  | nil =>
    constructor
    · rintro ⟨e, he⟩
      exact absurd he (by rw [mapE]; simp)
    · rintro ⟨a, ha, _⟩
      simp at ha
  | cons a rest ih =>
    constructor
    · rintro ⟨e, he⟩
      rw [mapE] at he
      rcases hfa : f a with e2 | b
      · exact ⟨a, by simp, e2, hfa⟩
      · rw [hfa] at he
        rcases hrest : mapE f rest with e3 | bs
        · obtain ⟨a2, ha2, hbad⟩ := ih.mp ⟨e3, hrest⟩
          exact ⟨a2, by simp [ha2], hbad⟩
        · rw [hrest] at he
          exact absurd he (by simp)
    · rintro ⟨a2, ha2, e2, he2⟩
      rcases List.mem_cons.mp ha2 with rfl | ha2r
      · exact ⟨e2, by simp [mapE, he2]⟩
      · rcases hfa : f a with e3 | b
        · exact ⟨e3, by simp [mapE, hfa]⟩
        · obtain ⟨e4, he4⟩ := ih.mpr ⟨a2, ha2r, e2, he2⟩
          exact ⟨e4, by simp [mapE, hfa, he4]⟩

theorem dualConstraintRow_error_iff (cons : List (List Char)) (n : Nat)
    (objTerms : List (List Char)) (vars : List (List Char)) (j : Nat) :
    (∃ e, dualConstraintRow cons n objTerms vars j = .error e) ↔
      ∃ c ∈ cons, dualRowBad c := by
  have hcomp : ∀ c : List Char,
      (∃ e, (match dualParts c with
        | .error e => (.error e : Except SolverError ℚ)
        | .ok lr => .ok (dualCoefOf ((splitSigns (jsTrim lr.1)).map jsTrim)
            ((vars.get? j).getD []))) = .error e) ↔ dualRowBad c := by
    intro c
    rcases hdp : dualParts c with e2 | lr
    · constructor
      · intro _
        exact (dualParts_error_iff c).mp ⟨e2, hdp⟩
      · intro _
        exact ⟨e2, rfl⟩
    · constructor
      · rintro ⟨e, he⟩
        simp at he
      · intro hbad
        obtain ⟨e, he⟩ := (dualParts_error_iff c).mpr hbad
        rw [hdp] at he
        exact Except.noConfusion he
  constructor
  · rintro ⟨e, he⟩
    rw [dualConstraintRow] at he
    rcases hmap : mapE (fun c =>
        match dualParts c with
        | .error e => .error e
        | .ok lr => .ok (dualCoefOf ((splitSigns (jsTrim lr.1)).map jsTrim)
            ((vars.get? j).getD []))) cons with e2 | coefs
    · obtain ⟨c2, hc2, hbad⟩ := (mapE_error_iff _ cons).mp ⟨e2, hmap⟩
      exact ⟨c2, hc2, (hcomp c2).mp hbad⟩
    · rw [hmap] at he
      exact absurd he (by simp)
  · rintro ⟨c2, hc2, hbad⟩
    obtain ⟨e, he⟩ := (mapE_error_iff (fun c =>
        match dualParts c with
        | .error e => .error e
        | .ok lr => .ok (dualCoefOf ((splitSigns (jsTrim lr.1)).map jsTrim)
            ((vars.get? j).getD []))) cons).mpr ⟨c2, hc2, (hcomp c2).mpr hbad⟩
    refine ⟨e, ?_⟩
    simp only [dualConstraintRow]
    rw [he]

theorem dualObjRow_error_iff (cons : List (List Char)) (n : Nat) :
    (∃ e, dualObjRow cons n = .error e) ↔ ∃ c ∈ cons, dualRowBad c := by
  have hcomp : ∀ c : List Char,
      (∃ e, (match dualParts c with
        | .error e => (.error e : Except SolverError ℚ)
        | .ok lr => .ok (-((jsParseFloat (jsTrim lr.2)).getD 0))) = .error e) ↔
        dualRowBad c := by
    intro c
    rcases hdp : dualParts c with e2 | lr
    · constructor
      · intro _
        exact (dualParts_error_iff c).mp ⟨e2, hdp⟩
      · intro _
        exact ⟨e2, rfl⟩
    · constructor
      · rintro ⟨e, he⟩
        simp at he
      · intro hbad
        obtain ⟨e, he⟩ := (dualParts_error_iff c).mpr hbad
        rw [hdp] at he
        exact Except.noConfusion he
  constructor
  · rintro ⟨e, he⟩
    rw [dualObjRow] at he
    rcases hmap : mapE (fun c =>
        match dualParts c with
        | .error e => .error e
        | .ok lr => .ok (-((jsParseFloat (jsTrim lr.2)).getD 0))) cons with e2 | negs
    · obtain ⟨c2, hc2, hbad⟩ := (mapE_error_iff _ cons).mp ⟨e2, hmap⟩
      exact ⟨c2, hc2, (hcomp c2).mp hbad⟩
    · rw [hmap] at he
      exact absurd he (by simp)
  · rintro ⟨c2, hc2, hbad⟩
    obtain ⟨e, he⟩ := (mapE_error_iff (fun c =>
        match dualParts c with
        | .error e => .error e
        | .ok lr => .ok (-((jsParseFloat (jsTrim lr.2)).getD 0))) cons).mpr
      ⟨c2, hc2, (hcomp c2).mpr hbad⟩
    refine ⟨e, ?_⟩
    simp only [dualObjRow]
    rw [he]

theorem buildDualTableauE_error_iff (cons vars objTerms : List (List Char)) :
    (∃ e, buildDualTableauE cons vars objTerms = .error e) ↔
      ∃ c ∈ cons, dualRowBad c := by
  constructor
  · rintro ⟨e, he⟩
    rw [buildDualTableauE] at he
    rcases hmap : mapE (dualConstraintRow cons vars.length objTerms vars)
        (List.range vars.length) with e2 | rows
    · obtain ⟨j, _, hbad⟩ := (mapE_error_iff _ _).mp ⟨e2, hmap⟩
      exact (dualConstraintRow_error_iff cons vars.length objTerms vars j).mp hbad
    · rw [hmap] at he
      rcases hobj : dualObjRow cons vars.length with e3 | orow
      · exact (dualObjRow_error_iff cons vars.length).mp ⟨e3, hobj⟩
      · rw [hobj] at he
        exact absurd he (by simp)
  · intro hbad
    rw [buildDualTableauE]
    rcases hmap : mapE (dualConstraintRow cons vars.length objTerms vars)
        (List.range vars.length) with e2 | rows
    · exact ⟨e2, rfl⟩
    · obtain ⟨e3, he3⟩ := (dualObjRow_error_iff cons vars.length).mpr hbad
      exact ⟨e3, by rw [he3]⟩

/-- C2 counterexample: on the constraint `"x1 <= abc"` (well-split, but with a
non-numeric RHS) the primal builder throws the invalid-RHS error while the
dual builder succeeds — the two builders do **not** fail under the same
conditions. -/
theorem claim_C2_counterexample :
    primalMake "x1" ["x1 <= abc"] .max = .error (.invalidRHS "x1 <= abc".data) ∧
    (∃ st, dualMake "x1" ["x1 <= abc"] .max = .ok st) := by
  exact ⟨by rfl, ⟨_, by rfl⟩⟩

/-- C2 (amended): both builders throw the same malformed-format error exactly
when splitting on `<=`/`>=`/`=` does not yield two parts; but only the primal
builder additionally validates the RHS (throwing when it parses as `NaN`),
while the dual builder performs no RHS check at all. -/
theorem claim_C2_amended :
    ∀ (c : List Char) (vars cons : List (List Char)) (objective : List Char)
      (objTerms : List (List Char)) (pt : ProbType) (n m i nd j : Nat),
      ((∃ e, primalConstraintRow vars n m i c = .error e) ↔
        (splitRel c).length ≠ 2 ∨
          ∃ l r, splitRel c = [l, r] ∧ jsParseFloat (jsTrim r) = none) ∧
      ((∃ e, dualParts c = .error e) ↔ (splitRel c).length ≠ 2) ∧
      ((∃ e, initializeMatrixE vars cons objective pt = .error e) ↔
        ∃ c2 ∈ cons, primalRowBad c2) ∧
      ((∃ e, buildDualTableauE cons vars objTerms = .error e) ↔
        ∃ c2 ∈ cons, dualRowBad c2) ∧
      ((∃ e, dualConstraintRow cons nd objTerms vars j = .error e) ↔
        ∃ c2 ∈ cons, (splitRel c2).length ≠ 2) := by
  intro c vars cons objective objTerms pt n m i nd j
  exact ⟨primalConstraintRow_error_iff vars n m i c, dualParts_error_iff c,
    initializeMatrixE_error_iff vars cons objective pt,
    buildDualTableauE_error_iff cons vars objTerms,
    dualConstraintRow_error_iff cons nd objTerms vars j⟩

/-! ### Parser coefficient extraction -/

/-- The term list both builders derive from a constraint's left side. -/
def primalTermsOfLeft (l : List Char) : List (List Char) :=
  (splitSigns (jsTrim l)).map jsTrim

/-- Does term `t` target column `j` in the primal builder?  (Nonempty term
whose parsed variable name sits at index `j` of the variable table.) -/
def termMatchesPrimal (vars : List (List Char)) (j : Nat) (t : List Char) : Bool :=
  !(decide (t = [])) &&
    decide (vars.findIdx? (fun w => decide (w = termVarPrimal (matchTermPrimal t).2)) = some j)

/-- Signed coefficient of the **last** term of the list targeting column `j`
(`none` when no term does): this is what the primal builder's overwrite loop
leaves behind. -/
def lastMatchCoef (vars : List (List Char)) (j : Nat) : List (List Char) → Option ℚ
  | [] => none
  | t :: ts =>
    match lastMatchCoef vars j ts with
    | some q => some q
    | none =>
      if termMatchesPrimal vars j t then some (termCoef (matchTermPrimal t).1) else none

/-- Signed coefficient of the **first** term targeting column `j`, the value
the claim predicts (`0` when no term matches). -/
def firstMatchCoefPrimal (terms : List (List Char)) (vars : List (List Char)) (j : Nat) : ℚ :=
  match terms.find? (fun t => termMatchesPrimal vars j t) with
  | some t => termCoef (matchTermPrimal t).1
  | none => 0

/-- Does term `t` match target variable `target` in the dual builder's regex? -/
def dualMatches (target t : List Char) : Bool :=
  !(decide (t = [])) &&
    (match matchTermDual t with
     | some g => decide (g.2 = target)
     | none => false)

/-- First-match coefficient, the dual builder's `break` semantics restated via
`List.find?`. -/
def firstMatchCoefDual (terms : List (List Char)) (target : List Char) : ℚ :=
  match terms.find? (dualMatches target) with
  | some t =>
    match matchTermDual t with
    | some g => termCoef g.1
    | none => 0
  | none => 0

theorem dualCoefOf_eq_first (terms : List (List Char)) (target : List Char) :
    dualCoefOf terms target = firstMatchCoefDual terms target := by
  induction terms with
  | nil => rfl
  | cons t ts ih =>
    rw [dualCoefOf, firstMatchCoefDual, List.findSome?_cons, List.find?_cons]
    by_cases ht : t = []
    · have hdm : dualMatches target t = false := by
        simp [dualMatches, ht]
      simp only [if_pos ht, hdm]
      exact ih
    · rcases hmd : matchTermDual t with _ | g
      · have hdm : dualMatches target t = false := by
          simp [dualMatches, ht, hmd]
        simp only [if_neg ht, hmd, hdm]
        exact ih
      · by_cases htg : g.2 = target
        · have hdm : dualMatches target t = true := by
            simp [dualMatches, ht, hmd, htg]
          simp [if_neg ht, hmd, hdm, htg]
        · have hdm : dualMatches target t = false := by
            simp [dualMatches, ht, hmd, htg]
          simpa [if_neg ht, hmd, hdm, htg] using ih

theorem applyTerm_length (vars : List (List Char)) (mult : ℚ) (row : List ℚ)
    (t : List Char) : (applyTerm vars mult row t).length = row.length := by
  by_cases ht : t = []
  · simp [applyTerm, ht]
  · simp only [applyTerm, if_neg ht]
    rcases h : List.findIdx? (fun w => decide (w = termVarPrimal (matchTermPrimal t).2)) vars
      with _ | k
    · simp only [h]
    · simp only [h]
      exact List.length_set row k _

theorem applyTerm_get?_of_ne (vars : List (List Char)) (mult : ℚ) (row : List ℚ)
    (t : List Char) (j : Nat) (h : termMatchesPrimal vars j t = false) :
    (applyTerm vars mult row t).get? j = row.get? j := by
  by_cases ht : t = []
  · simp [applyTerm, ht]
  · simp only [applyTerm, if_neg ht]
    rcases hfi : List.findIdx? (fun w => decide (w = termVarPrimal (matchTermPrimal t).2)) vars
      with _ | k
    · simp only [hfi]
    · simp only [hfi]
      have hkj : k ≠ j := by
        intro hkj
        subst hkj
        rw [termMatchesPrimal] at h
        simp [ht, hfi] at h
      rw [List.get?_eq_getElem?, List.get?_eq_getElem?, List.getElem?_set_ne hkj]

theorem applyTerm_get?_of_eq (vars : List (List Char)) (mult : ℚ) (row : List ℚ)
    (t : List Char) (j : Nat) (hj : j < row.length)
    (h : termMatchesPrimal vars j t = true) :
    (applyTerm vars mult row t).get? j = some (mult * termCoef (matchTermPrimal t).1) := by
  rw [termMatchesPrimal] at h
  simp only [Bool.and_eq_true, Bool.not_eq_true', decide_eq_false_iff_not,
    decide_eq_true_eq] at h
  obtain ⟨ht, hfi⟩ := h
  simp only [applyTerm, if_neg ht, hfi]
  rw [List.get?_eq_getElem?]
  rw [List.getElem?_set_self hj]

theorem fillRowCoefs_get? (vars : List (List Char)) (mult : ℚ) (j : Nat) :
    ∀ (terms : List (List Char)) (row : List ℚ), j < row.length →
      (fillRowCoefs vars mult row terms).get? j =
        (match lastMatchCoef vars j terms with
          | some q => some (mult * q)
          | none => row.get? j) := by
  intro terms
  induction terms with
  | nil =>
    intro row hj
    rfl
  | cons t ts ih =>
    intro row hj
    have hstep : fillRowCoefs vars mult row (t :: ts) =
        fillRowCoefs vars mult (applyTerm vars mult row t) ts := rfl
    rw [hstep, ih _ (by rw [applyTerm_length]; exact hj)]
    rcases hl : lastMatchCoef vars j ts with _ | q
    · rw [lastMatchCoef, hl]
      by_cases hm : termMatchesPrimal vars j t = true
      · rw [if_pos hm]
        exact applyTerm_get?_of_eq vars mult row t j hj hm
      · rw [if_neg hm]
        exact applyTerm_get?_of_ne vars mult row t j (Bool.of_not_eq_true hm)
    · rw [lastMatchCoef, hl]

theorem zerosRow_get? (k j : Nat) (hj : j < k) : (zerosRow k).get? j = some 0 := by
  rw [zerosRow, List.get?_eq_getElem?, List.getElem?_replicate]
  rw [if_pos hj]

/-- Entry `j < n` of a successfully built primal constraint row is exactly
the last-match coefficient of the left side (0 when no term targets it). -/
theorem primalConstraintRow_coef (vars : List (List Char)) (n m i : Nat)
    (c l r : List Char) (row : List ℚ) (j : Nat)
    (hok : primalConstraintRow vars n m i c = .ok row)
    (hsp : splitRel c = [l, r]) (hj : j < n) :
    row.get? j = some ((lastMatchCoef vars j (primalTermsOfLeft l)).getD 0) := by
  simp only [primalConstraintRow, hsp] at hok
  rcases hpf : jsParseFloat (jsTrim r) with _ | q
  · simp only [hpf] at hok
    exact Except.noConfusion hok
  · simp only [hpf] at hok
    have hlen2 : (((zerosRow (n + m + 2)).set (n + m + 1) q).set (n + m) 0).length =
        n + m + 2 := by
      simp [zerosRow]
    have hfill : (fillRowCoefs vars 1
        (((zerosRow (n + m + 2)).set (n + m + 1) q).set (n + m) 0)
        ((splitSigns (jsTrim l)).map jsTrim)).get? j =
        some ((lastMatchCoef vars j (primalTermsOfLeft l)).getD 0) := by
      rw [fillRowCoefs_get? vars 1 j _ _ (by rw [hlen2]; omega)]
      rcases hl : lastMatchCoef vars j ((splitSigns (jsTrim l)).map jsTrim) with _ | q2
      · have hl2 : lastMatchCoef vars j (primalTermsOfLeft l) = none := hl
        rw [hl2]
        simp only [Option.getD_none]
        rw [List.get?_eq_getElem?, List.getElem?_set_ne (by omega),
          List.getElem?_set_ne (by omega)]
        rw [zerosRow, List.getElem?_replicate, if_pos (by omega)]
      · have hl2 : lastMatchCoef vars j (primalTermsOfLeft l) = some q2 := hl
        rw [hl2]
        simp only [Option.getD_some, one_mul]
    split at hok
    · have hrow := Except.ok.inj hok
      rw [← hrow, List.get?_eq_getElem?, List.getElem?_set_ne (by omega),
        ← List.get?_eq_getElem?]
      exact hfill
    · split at hok
      · have hrow := Except.ok.inj hok
        rw [← hrow, List.get?_eq_getElem?, List.getElem?_set_ne (by omega),
          ← List.get?_eq_getElem?]
        exact hfill
      · have hrow := Except.ok.inj hok
        rw [← hrow]
        exact hfill

theorem mapE_ok_get {α β : Type} (f : α → Except SolverError β) :
    ∀ (l : List α) (bs : List β), mapE f l = .ok bs →
      bs.length = l.length ∧
      ∀ i a, l.get? i = some a → ∃ b, f a = .ok b ∧ bs.get? i = some b := by
  intro l
  induction l with
  | nil =>
    intro bs h
    rw [mapE] at h
    have hb : ([] : List β) = bs := Except.ok.inj h
    subst hb
    exact ⟨rfl, fun i a ha => by simp at ha⟩
  | cons a rest ih =>
    intro bs h
    rw [mapE] at h
    rcases hfa : f a with e | b
    · rw [hfa] at h
      exact Except.noConfusion h
    · rw [hfa] at h
      rcases hrest : mapE f rest with e | bs2
      · rw [hrest] at h
        exact Except.noConfusion h
      · rw [hrest] at h
        have hb : b :: bs2 = bs := Except.ok.inj h
        subst hb
        obtain ⟨hlen, hget⟩ := ih bs2 hrest
        refine ⟨by simp [hlen], ?_⟩
        intro i a2 ha2
        cases i with
        | zero =>
          have : a2 = a := by
            have := Option.some.inj ha2
            exact this.symm
          subst this
          exact ⟨b, hfa, rfl⟩
        | succ i2 => exact hget i2 a2 ha2

/-- Entry `i` of a successfully built dual constraint row `j` is the
first-match coefficient of constraint `i`'s left side for variable `j`. -/
theorem dualConstraintRow_coef (cons : List (List Char)) (nd : Nat)
    (objTerms : List (List Char)) (vars : List (List Char)) (j : Nat)
    (row : List ℚ) (i : Nat) (c : List Char)
    (hok : dualConstraintRow cons nd objTerms vars j = .ok row)
    (hc : cons.get? i = some c) :
    ∃ l r, splitRel c = [l, r] ∧
      row.get? i = some (dualCoefOf ((splitSigns (jsTrim l)).map jsTrim)
        ((vars.get? j).getD [])) := by
  rw [dualConstraintRow] at hok
  rcases hmap : mapE (fun c =>
      match dualParts c with
      | .error e => .error e
      | .ok lr => .ok (dualCoefOf ((splitSigns (jsTrim lr.1)).map jsTrim)
          ((vars.get? j).getD []))) cons with e | coefs
  · rw [hmap] at hok
    exact Except.noConfusion hok
  · rw [hmap] at hok
    obtain ⟨hlen, hget⟩ := mapE_ok_get _ cons coefs hmap
    obtain ⟨b, hb, hbi⟩ := hget i c hc
    rcases hdp : dualParts c with e2 | lr
    · rw [hdp] at hb
      exact Except.noConfusion hb
    · rw [hdp] at hb
      have hbval : dualCoefOf ((splitSigns (jsTrim lr.1)).map jsTrim)
          ((vars.get? j).getD []) = b := Except.ok.inj hb
      rw [dualParts] at hdp
      rcases hsp : splitRel c with _ | ⟨l, rest⟩
      · rw [hsp] at hdp
        exact Except.noConfusion hdp
      · rcases rest with _ | ⟨r, rest2⟩
        · rw [hsp] at hdp
          exact Except.noConfusion hdp
        · rcases rest2 with _ | ⟨x, rest3⟩
          · rw [hsp] at hdp
            have hlr : (l, r) = lr := Except.ok.inj hdp
            refine ⟨l, r, rfl, ?_⟩
            have hrow := Except.ok.inj hok
            have hilen : i < coefs.length := by
              rw [hlen]
              by_contra hge
              rw [List.get?_eq_getElem?, List.getElem?_eq_none (by omega)] at hc
              exact Option.noConfusion hc
            have h1 : i < (coefs ++ List.map
                (fun k => if k = j then (1 : ℚ) else 0) (List.range nd)).length := by
              simp
              omega
            rw [← hrow, List.get?_eq_getElem?, List.getElem?_append_left h1,
              List.getElem?_append_left hilen, ← List.get?_eq_getElem?, hbi,
              ← hbval, ← hlr]
          · rw [hsp] at hdp
            exact Except.noConfusion hdp

/-- C7 counterexample: in `"x1 + 2x1"` the primal builder's overwrite loop
stores the coefficient of the **last** matching term (`2`), not of the first
(`1`) as the claim predicts. -/
theorem claim_C7_counterexample :
    (∃ st, primalMake "x1" ["x1 + 2x1 <= 1"] .max = .ok st ∧
      entry st.matrix 0 0 = 2 ∧ st.vars = ["x1".data]) ∧
    firstMatchCoefPrimal (primalTermsOfLeft "x1 + 2x1".data) ["x1".data] 0 = 1 ∧
    (2 : ℚ) ≠ 1 := by
  refine ⟨⟨_, by rfl, by rfl, by rfl⟩, by rfl, by norm_num⟩

/-- C7 (amended): the tableau coefficient of a variable is the signed number
prefixing the **last** matching term for the primal builder (each later match
overwrites the earlier one) and the **first** matching term for the dual
builder (which `break`s); missing sign means `+`, missing number means
magnitude 1, and a variable targeted by no term keeps coefficient `0`.  The
claim's concrete example, where every variable occurs at most once, holds for
both builders: for `-2.5x1 + x3` the coefficient of `x1` is `-2.5`, of `x2`
is `0`, of `x3` is `1`. -/
theorem claim_C7_amended :
    (∀ (vars : List (List Char)) (n m i : Nat) (c l r : List Char) (row : List ℚ)
      (j : Nat), primalConstraintRow vars n m i c = .ok row → splitRel c = [l, r] →
      j < n →
      row.get? j = some ((lastMatchCoef vars j (primalTermsOfLeft l)).getD 0)) ∧
    (∀ (cons : List (List Char)) (nd : Nat) (objTerms vars : List (List Char))
      (j : Nat) (row : List ℚ) (i : Nat) (c : List Char),
      dualConstraintRow cons nd objTerms vars j = .ok row → cons.get? i = some c →
      ∃ l r, splitRel c = [l, r] ∧
        row.get? i = some (firstMatchCoefDual ((splitSigns (jsTrim l)).map jsTrim)
          ((vars.get? j).getD []))) ∧
    (∃ st, primalMake "x1 + x2 + x3" ["-2.5x1 + x3 <= 4"] .max = .ok st ∧
      entry st.matrix 0 0 = -(5 / 2 : ℚ) ∧ entry st.matrix 0 1 = 0 ∧
      entry st.matrix 0 2 = 1) ∧
    (∃ dst, dualMake "x1 + x2 + x3" ["-2.5x1 + x3 <= 4"] .max = .ok dst ∧
      entry dst.matrix 0 0 = -(5 / 2 : ℚ) ∧ entry dst.matrix 1 0 = 0 ∧
      entry dst.matrix 2 0 = 1) := by
  refine ⟨?_, ?_, ⟨_, by rfl, by rfl, by rfl, by rfl⟩, ⟨_, by rfl, by rfl, by rfl, by rfl⟩⟩
  · intro vars n m i c l r row j hok hsp hj
    exact primalConstraintRow_coef vars n m i c l r row j hok hsp hj
  · intro cons nd objTerms vars j row i c hok hc
    obtain ⟨l, r, hsp, hrow⟩ := dualConstraintRow_coef cons nd objTerms vars j row i c hok hc
    exact ⟨l, r, hsp, by rw [hrow, dualCoefOf_eq_first]⟩

/-- Witness for the amended C7 at the example constraint. -/
theorem claim_C7_witness :
    ∃ row, primalConstraintRow ["x1".data, "x2".data, "x3".data] 3 1 0
        "-2.5x1 + x3 <= 4".data = .ok row ∧
      row.get? 0 = some ((lastMatchCoef ["x1".data, "x2".data, "x3".data] 0
        (primalTermsOfLeft "-2.5x1 + x3 ".data)).getD 0) := by
  refine ⟨_, rfl, ?_⟩
  exact claim_C7_amended.1 ["x1".data, "x2".data, "x3".data] 3 1 0
    "-2.5x1 + x3 <= 4".data "-2.5x1 + x3 ".data " 4".data _ 0 rfl (by rfl) (by omega)

/-! ### The heap model of matrix snapshots (C9)

The JS program mutates `this.matrix` in place (`pivot`) and records
snapshots with `this.steps.push({ table: this.cloneMatrix(this.matrix) })`.
To state snapshot isolation the store is made explicit: a `Heap` of matrix
cells, with `this.matrix` living in one fixed cell and every `cloneMatrix`
call allocating a fresh cell holding a copy of the rows. -/

structure Heap where
  cells : List (List (List ℚ))

/-- Dereference cell `r` (reading a dangling reference yields `[]`). -/
def Heap.read (h : Heap) (r : Nat) : List (List ℚ) := (h.cells.get? r).getD []

/-- Overwrite cell `r` in place. -/
def Heap.write (h : Heap) (r : Nat) (m : List (List ℚ)) : Heap :=
  ⟨h.cells.set r m⟩

/-- Allocate a fresh cell holding `m`; returns the new heap and the
reference to the new cell. -/
def Heap.alloc (h : Heap) (m : List (List ℚ)) : Heap × Nat :=
  (⟨h.cells ++ [m]⟩, h.cells.length)

theorem Heap.length_write (h : Heap) (r : Nat) (m : List (List ℚ)) :
    (Heap.write h r m).cells.length = h.cells.length := by
  simp [Heap.write]

theorem Heap.read_write_self (h : Heap) (r : Nat) (m : List (List ℚ))
    (hr : r < h.cells.length) : Heap.read (Heap.write h r m) r = m := by
  simp only [Heap.read, Heap.write]
  rw [List.get?_eq_getElem?, List.getElem?_set_self hr, Option.getD_some]

theorem Heap.read_write_ne (h : Heap) (r p : Nat) (m : List (List ℚ))
    (hp : r ≠ p) : Heap.read (Heap.write h r m) p = Heap.read h p := by
  simp only [Heap.read, Heap.write]
  rw [List.get?_eq_getElem?, List.getElem?_set_ne hp, ← List.get?_eq_getElem?]

theorem Heap.length_alloc (h : Heap) (m : List (List ℚ)) :
    (Heap.alloc h m).1.cells.length = h.cells.length + 1 := by
  simp [Heap.alloc]

theorem Heap.alloc_ref (h : Heap) (m : List (List ℚ)) :
    (Heap.alloc h m).2 = h.cells.length := rfl

theorem Heap.read_alloc_lt (h : Heap) (m : List (List ℚ)) (p : Nat)
    (hp : p < h.cells.length) :
    Heap.read (Heap.alloc h m).1 p = Heap.read h p := by
  simp only [Heap.read, Heap.alloc]
  rw [List.get?_eq_getElem?, List.getElem?_append_left hp, ← List.get?_eq_getElem?]

theorem Heap.read_alloc_self (h : Heap) (m : List (List ℚ)) :
    Heap.read (Heap.alloc h m).1 (Heap.alloc h m).2 = m := by
  simp only [Heap.read, Heap.alloc]
  rw [List.get?_eq_getElem?, List.getElem?_concat_length, Option.getD_some]

/-- The primal `solve` loop in the heap model: `pivot` writes the live
matrix cell (`matRef`) in place, then the `steps.push` snapshot allocates a
fresh cell holding `cloneMatrix` of the live matrix and records its
reference. -/
def solveLoopHP (fuel : Nat) (base : PrimalSolver) (h : Heap) (matRef : Nat)
    (refs : List (Nat × Option PivotInfo)) :
    Except SolverError (Heap × List (Nat × Option PivotInfo)) :=
  match fuel with
  | 0 => .error .outOfFuel
  | fuel + 1 =>
    let st := { base with matrix := Heap.read h matRef }
    if primalCanImprove st then
      match primalFindPivotCol st with
      | none => .error .noFiniteSolution
      | some c =>
        match primalFindPivotRow st c with
        | none => .error .noFiniteSolution
        | some r =>
          let pin := primalPivotInfo st r c
          let h2 := Heap.write h matRef (pivotOp (Heap.read h matRef) r c)
          let pr := Heap.alloc h2 (cloneMatrix (Heap.read h2 matRef))
          solveLoopHP fuel base pr.1 matRef (refs ++ [(pr.2, some pin)])
    else .ok (h, refs)

/-- The dual `solve` loop in the heap model. -/
def solveLoopHD (fuel : Nat) (base : DualSolver) (h : Heap) (matRef : Nat)
    (refs : List (Nat × Option PivotInfo)) :
    Except SolverError (Heap × List (Nat × Option PivotInfo)) :=
  match fuel with
  | 0 => .error .outOfFuel
  | fuel + 1 =>
    let st := { base with matrix := Heap.read h matRef }
    if dualCanImprove st then
      match dualFindPivotCol st with
      | none => .error .noFiniteSolution
      | some c =>
        match dualFindPivotRow st c with
        | none => .error .noFiniteSolution
        | some r =>
          let pin := dualPivotInfo st r c
          let h2 := Heap.write h matRef (pivotOp (Heap.read h matRef) r c)
          let pr := Heap.alloc h2 (cloneMatrix (Heap.read h2 matRef))
          solveLoopHD fuel base pr.1 matRef (refs ++ [(pr.2, some pin)])
    else .ok (h, refs)

/-- Heap-model `solve` for the primal solver: allocate the live matrix
cell, allocate the initial snapshot cell, run the loop; returns the final
heap, the live-matrix reference and the recorded snapshot references. -/
def primalSolveH (fuel : Nat) (st : PrimalSolver) :
    Except SolverError (Heap × Nat × List (Nat × Option PivotInfo)) :=
  let pr0 := Heap.alloc ⟨[]⟩ st.matrix
  let pr1 := Heap.alloc pr0.1 (cloneMatrix (Heap.read pr0.1 pr0.2))
  match solveLoopHP fuel st pr1.1 pr0.2 [(pr1.2, none)] with
  | .error e => .error e
  | .ok (hfin, refs) => .ok (hfin, pr0.2, refs)

/-- Heap-model `solve` for the dual solver. -/
def dualSolveH (fuel : Nat) (st : DualSolver) :
    Except SolverError (Heap × Nat × List (Nat × Option PivotInfo)) :=
  let pr0 := Heap.alloc ⟨[]⟩ st.matrix
  let pr1 := Heap.alloc pr0.1 (cloneMatrix (Heap.read pr0.1 pr0.2))
  match solveLoopHD fuel st pr1.1 pr0.2 [(pr1.2, none)] with
  | .error e => .error e
  | .ok (hfin, refs) => .ok (hfin, pr0.2, refs)

/-- Heap/pure simulation for the primal loop: if every recorded snapshot
lives in a cell distinct from the live matrix cell and currently holds the
corresponding pure step's table, then a completed heap run matches a
completed pure run, and in the **final** heap every snapshot still holds
its step's table. -/
theorem solveLoopHP_sim (base : PrimalSolver) :
    ∀ (fuel : Nat) (h : Heap) (matRef : Nat)
      (refs : List (Nat × Option PivotInfo)) (steps : List Step)
      (hfin : Heap) (refs2 : List (Nat × Option PivotInfo)),
      matRef < h.cells.length →
      refs.length = steps.length →
      (∀ k p, refs.get? k = some p → p.1 < h.cells.length ∧ p.1 ≠ matRef ∧
        ∃ s, steps.get? k = some s ∧ Heap.read h p.1 = s.table ∧
          p.2 = s.pivotInfo) →
      solveLoopHP fuel base h matRef refs = .ok (hfin, refs2) →
      ∃ st2 steps2,
        primalSolveLoop fuel { base with matrix := Heap.read h matRef } steps =
          .ok (st2, steps2) ∧
        refs2.length = steps2.length ∧
        ∀ k p, refs2.get? k = some p → ∃ s, steps2.get? k = some s ∧
          p.1 ≠ matRef ∧ Heap.read hfin p.1 = s.table ∧ p.2 = s.pivotInfo := by
  intro fuel
  induction fuel with
  | zero =>
    intro h matRef refs steps hfin refs2 _ _ _ hrun
    rw [solveLoopHP] at hrun
    exact Except.noConfusion hrun
  | succ fuel ih =>
    intro h matRef refs steps hfin refs2 hm hlen hinv hrun
    by_cases himp : primalCanImprove { base with matrix := Heap.read h matRef }
    · rcases hc : primalFindPivotCol { base with matrix := Heap.read h matRef }
        with _ | c
      · rw [solveLoopHP] at hrun
        simp only [himp, if_true, hc] at hrun
        exact Except.noConfusion hrun
      · rcases hrow : primalFindPivotRow { base with matrix := Heap.read h matRef } c
          with _ | r
        · rw [solveLoopHP] at hrun
          simp only [himp, if_true, hc, hrow] at hrun
          exact Except.noConfusion hrun
        · rw [solveLoopHP] at hrun
          simp only [himp, if_true, hc, hrow] at hrun
          set M2 := pivotOp (Heap.read h matRef) r c with hM2
          set hW := Heap.write h matRef M2 with hHW
          set snap := cloneMatrix (Heap.read hW matRef) with hsnap
          set pin := primalPivotInfo { base with matrix := Heap.read h matRef } r c
            with hpin
          have hWlen : hW.cells.length = h.cells.length := by
            rw [hHW]
            exact Heap.length_write h matRef M2
          have hsnapval : snap = M2 := by
            rw [hsnap, hHW, Heap.read_write_self h matRef M2 hm, cloneMatrix_id]
          have hAlen : (Heap.alloc hW snap).1.cells.length = h.cells.length + 1 := by
            rw [Heap.length_alloc, hWlen]
          have hAref : (Heap.alloc hW snap).2 = h.cells.length := by
            rw [Heap.alloc_ref, hWlen]
          have hreadA : Heap.read (Heap.alloc hW snap).1 matRef = M2 := by
            rw [Heap.read_alloc_lt hW snap matRef (by rw [hWlen]; exact hm), hHW]
            exact Heap.read_write_self h matRef M2 hm
          have hinvN : ∀ k p,
              (refs ++ [((Heap.alloc hW snap).2, some pin)]).get? k = some p →
              p.1 < (Heap.alloc hW snap).1.cells.length ∧ p.1 ≠ matRef ∧
              ∃ s, (steps ++ [(⟨snap, some pin⟩ : Step)]).get? k = some s ∧
                Heap.read (Heap.alloc hW snap).1 p.1 = s.table ∧
                p.2 = s.pivotInfo := by
            intro k p hk
            rcases Nat.lt_trichotomy k refs.length with hkl | hkl | hkl
            · rw [List.get?_eq_getElem?, List.getElem?_append_left hkl,
                ← List.get?_eq_getElem?] at hk
              obtain ⟨hq1, hq2, s, hs, hrd, hpi⟩ := hinv k p hk
              refine ⟨by rw [hAlen]; omega, hq2, s, ?_, ?_, hpi⟩
              · rw [List.get?_eq_getElem?,
                  List.getElem?_append_left (by omega : k < steps.length),
                  ← List.get?_eq_getElem?]
                exact hs
              · rw [Heap.read_alloc_lt hW snap p.1 (by omega), hHW,
                  Heap.read_write_ne h matRef p.1 M2 (Ne.symm hq2)]
                exact hrd
            · subst hkl
              rw [List.get?_eq_getElem?, List.getElem?_concat_length] at hk
              have hpk : ((Heap.alloc hW snap).2, some pin) = p := Option.some.inj hk
              subst hpk
              refine ⟨by rw [hAref, hAlen]; omega, by rw [hAref]; omega, ?_⟩
              refine ⟨⟨snap, some pin⟩, ?_, Heap.read_alloc_self hW snap, rfl⟩
              rw [List.get?_eq_getElem?, hlen, List.getElem?_concat_length]
            · rw [List.get?_eq_getElem?, List.getElem?_eq_none (by
                simp only [List.length_append, List.length_cons, List.length_nil]
                omega)] at hk
              exact Option.noConfusion hk
          obtain ⟨st2, steps2, hploop, hlsim, hpropsim⟩ :=
            ih (Heap.alloc hW snap).1 matRef
              (refs ++ [((Heap.alloc hW snap).2, some pin)])
              (steps ++ [(⟨snap, some pin⟩ : Step)]) hfin refs2
              (by rw [hAlen]; omega)
              (by simp [hlen])
              hinvN hrun
          rw [hreadA] at hploop
          rw [hsnapval] at hploop
          refine ⟨st2, steps2, ?_, hlsim, hpropsim⟩
          rw [primalSolveLoop]
          simp only [himp, if_true, hc, hrow]
          rw [cloneMatrix_id]
          exact hploop
    · rw [solveLoopHP] at hrun
      simp only [if_neg himp] at hrun
      have hpair := Except.ok.inj hrun
      have e1 : h = hfin := congrArg Prod.fst hpair
      have e2 : refs = refs2 := congrArg Prod.snd hpair
      subst e1
      subst e2
      refine ⟨{ base with matrix := Heap.read h matRef }, steps,
        primalSolveLoop_stop fuel _ steps (Bool.of_not_eq_true himp), hlen, ?_⟩
      intro k p hk
      obtain ⟨_, hne, s, hs, hrd, hpi⟩ := hinv k p hk
      exact ⟨s, hs, hne, hrd, hpi⟩

/-- Heap/pure simulation for the dual loop (same argument as the primal
one). -/
theorem solveLoopHD_sim (base : DualSolver) :
    ∀ (fuel : Nat) (h : Heap) (matRef : Nat)
      (refs : List (Nat × Option PivotInfo)) (steps : List Step)
      (hfin : Heap) (refs2 : List (Nat × Option PivotInfo)),
      matRef < h.cells.length →
      refs.length = steps.length →
      (∀ k p, refs.get? k = some p → p.1 < h.cells.length ∧ p.1 ≠ matRef ∧
        ∃ s, steps.get? k = some s ∧ Heap.read h p.1 = s.table ∧
          p.2 = s.pivotInfo) →
      solveLoopHD fuel base h matRef refs = .ok (hfin, refs2) →
      ∃ st2 steps2,
        dualSolveLoop fuel { base with matrix := Heap.read h matRef } steps =
          .ok (st2, steps2) ∧
        refs2.length = steps2.length ∧
        ∀ k p, refs2.get? k = some p → ∃ s, steps2.get? k = some s ∧
          p.1 ≠ matRef ∧ Heap.read hfin p.1 = s.table ∧ p.2 = s.pivotInfo := by
  intro fuel
  induction fuel with
  | zero =>
    intro h matRef refs steps hfin refs2 _ _ _ hrun
    rw [solveLoopHD] at hrun
    exact Except.noConfusion hrun
  | succ fuel ih =>
    intro h matRef refs steps hfin refs2 hm hlen hinv hrun
    by_cases himp : dualCanImprove { base with matrix := Heap.read h matRef }
    · rcases hc : dualFindPivotCol { base with matrix := Heap.read h matRef }
        with _ | c
      · rw [solveLoopHD] at hrun
        simp only [himp, if_true, hc] at hrun
        exact Except.noConfusion hrun
      · rcases hrow : dualFindPivotRow { base with matrix := Heap.read h matRef } c
          with _ | r
        · rw [solveLoopHD] at hrun
          simp only [himp, if_true, hc, hrow] at hrun
          exact Except.noConfusion hrun
        · rw [solveLoopHD] at hrun
          simp only [himp, if_true, hc, hrow] at hrun
          set M2 := pivotOp (Heap.read h matRef) r c with hM2
          set hW := Heap.write h matRef M2 with hHW
          set snap := cloneMatrix (Heap.read hW matRef) with hsnap
          set pin := dualPivotInfo { base with matrix := Heap.read h matRef } r c
            with hpin
          have hWlen : hW.cells.length = h.cells.length := by
            rw [hHW]
            exact Heap.length_write h matRef M2
          have hsnapval : snap = M2 := by
            rw [hsnap, hHW, Heap.read_write_self h matRef M2 hm, cloneMatrix_id]
          have hAlen : (Heap.alloc hW snap).1.cells.length = h.cells.length + 1 := by
            rw [Heap.length_alloc, hWlen]
          have hAref : (Heap.alloc hW snap).2 = h.cells.length := by
            rw [Heap.alloc_ref, hWlen]
          have hreadA : Heap.read (Heap.alloc hW snap).1 matRef = M2 := by
            rw [Heap.read_alloc_lt hW snap matRef (by rw [hWlen]; exact hm), hHW]
            exact Heap.read_write_self h matRef M2 hm
          have hinvN : ∀ k p,
              (refs ++ [((Heap.alloc hW snap).2, some pin)]).get? k = some p →
              p.1 < (Heap.alloc hW snap).1.cells.length ∧ p.1 ≠ matRef ∧
              ∃ s, (steps ++ [(⟨snap, some pin⟩ : Step)]).get? k = some s ∧
                Heap.read (Heap.alloc hW snap).1 p.1 = s.table ∧
                p.2 = s.pivotInfo := by
            intro k p hk
            rcases Nat.lt_trichotomy k refs.length with hkl | hkl | hkl
            · rw [List.get?_eq_getElem?, List.getElem?_append_left hkl,
                ← List.get?_eq_getElem?] at hk
              obtain ⟨hq1, hq2, s, hs, hrd, hpi⟩ := hinv k p hk
              refine ⟨by rw [hAlen]; omega, hq2, s, ?_, ?_, hpi⟩
              · rw [List.get?_eq_getElem?,
                  List.getElem?_append_left (by omega : k < steps.length),
                  ← List.get?_eq_getElem?]
                exact hs
              · rw [Heap.read_alloc_lt hW snap p.1 (by omega), hHW,
                  Heap.read_write_ne h matRef p.1 M2 (Ne.symm hq2)]
                exact hrd
            · subst hkl
              rw [List.get?_eq_getElem?, List.getElem?_concat_length] at hk
              have hpk : ((Heap.alloc hW snap).2, some pin) = p := Option.some.inj hk
              subst hpk
              refine ⟨by rw [hAref, hAlen]; omega, by rw [hAref]; omega, ?_⟩
              refine ⟨⟨snap, some pin⟩, ?_, Heap.read_alloc_self hW snap, rfl⟩
              rw [List.get?_eq_getElem?, hlen, List.getElem?_concat_length]
            · rw [List.get?_eq_getElem?, List.getElem?_eq_none (by
                simp only [List.length_append, List.length_cons, List.length_nil]
                omega)] at hk
              exact Option.noConfusion hk
          obtain ⟨st2, steps2, hploop, hlsim, hpropsim⟩ :=
            ih (Heap.alloc hW snap).1 matRef
              (refs ++ [((Heap.alloc hW snap).2, some pin)])
              (steps ++ [(⟨snap, some pin⟩ : Step)]) hfin refs2
              (by rw [hAlen]; omega)
              (by simp [hlen])
              hinvN hrun
          rw [hreadA] at hploop
          rw [hsnapval] at hploop
          refine ⟨st2, steps2, ?_, hlsim, hpropsim⟩
          rw [dualSolveLoop]
          simp only [himp, if_true, hc, hrow]
          rw [cloneMatrix_id]
          exact hploop
    · rw [solveLoopHD] at hrun
      simp only [if_neg himp] at hrun
      have hpair := Except.ok.inj hrun
      have e1 : h = hfin := congrArg Prod.fst hpair
      have e2 : refs = refs2 := congrArg Prod.snd hpair
      subst e1
      subst e2
      refine ⟨{ base with matrix := Heap.read h matRef }, steps,
        dualSolveLoop_stop fuel _ steps (Bool.of_not_eq_true himp), hlen, ?_⟩
      intro k p hk
      obtain ⟨_, hne, s, hs, hrd, hpi⟩ := hinv k p hk
      exact ⟨s, hs, hne, hrd, hpi⟩

theorem primalSolveH_sim (fuel : Nat) (st : PrimalSolver) (hfin : Heap)
    (matRef : Nat) (refs : List (Nat × Option PivotInfo))
    (hrun : primalSolveH fuel st = .ok (hfin, matRef, refs)) :
    ∃ st2 steps,
      primalSolveLoop fuel st [⟨cloneMatrix st.matrix, none⟩] = .ok (st2, steps) ∧
      refs.length = steps.length ∧
      ∀ k p, refs.get? k = some p → ∃ s, steps.get? k = some s ∧
        p.1 ≠ matRef ∧ Heap.read hfin p.1 = s.table ∧ p.2 = s.pivotInfo := by
  have hrun2 : (match solveLoopHP fuel st ⟨[st.matrix, cloneMatrix st.matrix]⟩ 0
        [(1, none)] with
      | .error e =>
        (.error e : Except SolverError (Heap × Nat × List (Nat × Option PivotInfo)))
      | .ok (hf, rs) => .ok (hf, 0, rs)) = .ok (hfin, matRef, refs) := hrun
  rcases hloop : solveLoopHP fuel st ⟨[st.matrix, cloneMatrix st.matrix]⟩ 0
      [(1, none)] with e | pr2
  · rw [hloop] at hrun2
    exact Except.noConfusion hrun2
  · rcases pr2 with ⟨hf, rs⟩
    rw [hloop] at hrun2
    have hpair := Except.ok.inj hrun2
    have e1 : hf = hfin := congrArg Prod.fst hpair
    have e2 : (0 : Nat) = matRef := congrArg (fun x => x.2.1) hpair
    have e3 : rs = refs := congrArg (fun x => x.2.2) hpair
    subst e1
    subst e2
    subst e3
    have hinv0 : ∀ k p, ([((1 : Nat), (none : Option PivotInfo))]).get? k = some p →
        p.1 < (⟨[st.matrix, cloneMatrix st.matrix]⟩ : Heap).cells.length ∧ p.1 ≠ 0 ∧
        ∃ sS, ([(⟨cloneMatrix st.matrix, none⟩ : Step)]).get? k = some sS ∧
          Heap.read ⟨[st.matrix, cloneMatrix st.matrix]⟩ p.1 = sS.table ∧
          p.2 = sS.pivotInfo := by
      intro k p hk
      cases k with
      | zero =>
        have hpk : ((1 : Nat), (none : Option PivotInfo)) = p := Option.some.inj hk
        subst hpk
        exact ⟨Nat.one_lt_two, one_ne_zero, ⟨cloneMatrix st.matrix, none⟩,
          rfl, rfl, rfl⟩
      | succ k => exact Option.noConfusion hk
    obtain ⟨st2, steps2, hps, hl, hprop⟩ := solveLoopHP_sim st fuel
      ⟨[st.matrix, cloneMatrix st.matrix]⟩ 0 [(1, none)]
      [⟨cloneMatrix st.matrix, none⟩] hf rs
      (Nat.succ_pos 1) rfl hinv0 hloop
    exact ⟨st2, steps2, hps, hl, hprop⟩

theorem dualSolveH_sim (fuel : Nat) (st : DualSolver) (hfin : Heap)
    (matRef : Nat) (refs : List (Nat × Option PivotInfo))
    (hrun : dualSolveH fuel st = .ok (hfin, matRef, refs)) :
    ∃ st2 steps,
      dualSolveLoop fuel st [⟨cloneMatrix st.matrix, none⟩] = .ok (st2, steps) ∧
      refs.length = steps.length ∧
      ∀ k p, refs.get? k = some p → ∃ s, steps.get? k = some s ∧
        p.1 ≠ matRef ∧ Heap.read hfin p.1 = s.table ∧ p.2 = s.pivotInfo := by
  have hrun2 : (match solveLoopHD fuel st ⟨[st.matrix, cloneMatrix st.matrix]⟩ 0
        [(1, none)] with
      | .error e =>
        (.error e : Except SolverError (Heap × Nat × List (Nat × Option PivotInfo)))
      | .ok (hf, rs) => .ok (hf, 0, rs)) = .ok (hfin, matRef, refs) := hrun
  rcases hloop : solveLoopHD fuel st ⟨[st.matrix, cloneMatrix st.matrix]⟩ 0
      [(1, none)] with e | pr2
  · rw [hloop] at hrun2
    exact Except.noConfusion hrun2
  · rcases pr2 with ⟨hf, rs⟩
    rw [hloop] at hrun2
    have hpair := Except.ok.inj hrun2
    have e1 : hf = hfin := congrArg Prod.fst hpair
    have e2 : (0 : Nat) = matRef := congrArg (fun x => x.2.1) hpair
    have e3 : rs = refs := congrArg (fun x => x.2.2) hpair
    subst e1
    subst e2
    subst e3
    have hinv0 : ∀ k p, ([((1 : Nat), (none : Option PivotInfo))]).get? k = some p →
        p.1 < (⟨[st.matrix, cloneMatrix st.matrix]⟩ : Heap).cells.length ∧ p.1 ≠ 0 ∧
        ∃ sS, ([(⟨cloneMatrix st.matrix, none⟩ : Step)]).get? k = some sS ∧
          Heap.read ⟨[st.matrix, cloneMatrix st.matrix]⟩ p.1 = sS.table ∧
          p.2 = sS.pivotInfo := by
      intro k p hk
      cases k with
      | zero =>
        have hpk : ((1 : Nat), (none : Option PivotInfo)) = p := Option.some.inj hk
        subst hpk
        exact ⟨Nat.one_lt_two, one_ne_zero, ⟨cloneMatrix st.matrix, none⟩,
          rfl, rfl, rfl⟩
      | succ k => exact Option.noConfusion hk
    obtain ⟨st2, steps2, hps, hl, hprop⟩ := solveLoopHD_sim st fuel
      ⟨[st.matrix, cloneMatrix st.matrix]⟩ 0 [(1, none)]
      [⟨cloneMatrix st.matrix, none⟩] hf rs
      (Nat.succ_pos 1) rfl hinv0 hloop
    exact ⟨st2, steps2, hps, hl, hprop⟩

/-- C9: snapshot isolation.  In the heap model — where `pivot` mutates the
live matrix cell `matRef` in place and each recorded step stores only a
reference to a freshly allocated `cloneMatrix` copy — every completed
`solve` matches the pure-value run, every snapshot reference is distinct
from the live matrix cell, and dereferencing each snapshot in the **final**
heap (after all subsequent pivot mutations) still yields exactly the table
that the pure model recorded at that step.  This holds for the primal and
the dual solver. -/
theorem claim_C9 :
    (∀ (fuel : Nat) (st : PrimalSolver) (hfin : Heap) (matRef : Nat)
      (refs : List (Nat × Option PivotInfo)),
      primalSolveH fuel st = .ok (hfin, matRef, refs) →
      ∃ st2 steps,
        primalSolveLoop fuel st [⟨cloneMatrix st.matrix, none⟩] =
          .ok (st2, steps) ∧
        refs.length = steps.length ∧
        ∀ k p, refs.get? k = some p → ∃ s, steps.get? k = some s ∧
          p.1 ≠ matRef ∧ Heap.read hfin p.1 = s.table ∧ p.2 = s.pivotInfo) ∧
    (∀ (fuel : Nat) (st : DualSolver) (hfin : Heap) (matRef : Nat)
      (refs : List (Nat × Option PivotInfo)),
      dualSolveH fuel st = .ok (hfin, matRef, refs) →
      ∃ st2 steps,
        dualSolveLoop fuel st [⟨cloneMatrix st.matrix, none⟩] =
          .ok (st2, steps) ∧
        refs.length = steps.length ∧
        ∀ k p, refs.get? k = some p → ∃ s, steps.get? k = some s ∧
          p.1 ≠ matRef ∧ Heap.read hfin p.1 = s.table ∧ p.2 = s.pivotInfo) :=
  ⟨fun fuel st hfin matRef refs hrun =>
      primalSolveH_sim fuel st hfin matRef refs hrun,
    fun fuel st hfin matRef refs hrun =>
      dualSolveH_sim fuel st hfin matRef refs hrun⟩

/-- Witness for C9 at the §8 example: both heap runs complete, and their
final-heap snapshots agree with the pure runs' recorded steps. -/
theorem claim_C9_witness :
    (∃ hfin refs st2 steps,
      primalSolveH 10 demoP = .ok (hfin, 0, refs) ∧
      primalSolveLoop 10 demoP [⟨cloneMatrix demoP.matrix, none⟩] =
        .ok (st2, steps) ∧
      refs.length = steps.length ∧
      ∀ k p, refs.get? k = some p → ∃ s, steps.get? k = some s ∧
        p.1 ≠ 0 ∧ Heap.read hfin p.1 = s.table ∧ p.2 = s.pivotInfo) ∧
    (∃ hfin refs st2 steps,
      dualSolveH 10 demoD = .ok (hfin, 0, refs) ∧
      dualSolveLoop 10 demoD [⟨cloneMatrix demoD.matrix, none⟩] =
        .ok (st2, steps) ∧
      refs.length = steps.length ∧
      ∀ k p, refs.get? k = some p → ∃ s, steps.get? k = some s ∧
        p.1 ≠ 0 ∧ Heap.read hfin p.1 = s.table ∧ p.2 = s.pivotInfo) := by
  constructor
  · obtain ⟨st2, steps, h1, h2, h3⟩ := claim_C9.1 10 demoP _ 0 _ rfl
    exact ⟨_, _, st2, steps, rfl, h1, h2, h3⟩
  · obtain ⟨st2, steps, h1, h2, h3⟩ := claim_C9.2 10 demoD _ 0 _ rfl
    exact ⟨_, _, st2, steps, rfl, h1, h2, h3⟩

end Simplex
